import Mathlib

/-!
Verification of the negacyclic polynomial arithmetic library.

The library implements arithmetic in the rings Z[X]/(X^N+1), Z_p[X]/(X^N+1)
and Z_pq[X]/(X^N+1) for N a power of two.  Polynomials are modelled as lists
of integers (the slice of arbitrary-precision coefficients), and as functions
from indices to integers while the in-place transforms run.  Go big.Int
division and remainder on a positive modulus coincide with Lean integer
division and emod, which are used throughout.
-/

namespace Negacyclic

/-- Modelled from the spec: bit reversal of an index over a given bit width.
The table builder rootsOfUnityBitReverse (whose source file is not part of the
provided sources) stores g to the power bitrev(i, log2 N).  The low bit of the
index becomes the high bit of the result. -/
def bitReverse : Nat → Nat → Nat
  | 0, _ => 0
  | k + 1, i => bitReverse k (i / 2) + i % 2 * 2 ^ k

/-- Modelled from the spec: the big-integer facade offers a modular inverse
(Go math/big ModInverse), returning the canonical representative in [0, q)
of the inverse of a modulo q.  Every use in this library inverts modulo a
prime, where the Fermat power below returns exactly that canonical
representative. -/
def modularInverse (a q : Int) : Int :=
  a ^ (q - 2).toNat % q

/-- Structural base-two logarithm with explicit fuel, used so that every
definition evaluates inside the kernel; log2floor n n is the floor of log2 n
for n at least 1. -/
def log2floor : Nat → Nat → Nat
  | 0, _ => 0
  | fuel + 1, n => if n ≥ 2 then log2floor fuel (n / 2) + 1 else 0

/-- Modelled from the spec: rootsOfUnityBitReverse(N, g, q) produces the table
T with T[i] = g ^ bitrev(i, log2 N) mod q, consumed by the butterflies in the
index pattern roots[m + i]. -/
def rootsOfUnityBitReverse (n : Nat) (g q : Int) : Nat → Int :=
  fun i => g ^ bitReverse (log2floor n n) i % q

/-- Embedding of one two-point butterfly writing positions j and j + t of the
in-place array: it reads a[j] and a[j + t], then stores the two components
produced by f. -/
def pairOp (f : Int → Int → Int × Int) (t j : Nat) (a : Nat → Int) : Nat → Int :=
  fun idx =>
    if idx = j then (f (a j) (a (j + t))).1
    else if idx = j + t then (f (a j) (a (j + t))).2
    else a idx

/-- Inner butterfly loop: positions j1, j1 + 1, ..., j1 + c - 1 are processed
in order (the Go loop for j := j1; j <= j2; j++ with j2 = j1 + t - 1,
instantiated with c = t). -/
def rowGo (f : Int → Int → Int × Int) (t j1 c : Nat) (a : Nat → Int) : Nat → Int :=
  (List.range c).foldl (fun b jo => pairOp f t (j1 + jo) b) a

/-- Middle loop of a transform stage: block i starts at j1 = 2 * i * t and
processes t butterflies with the block personality F i. -/
def blockFold (F : Nat → Int → Int → Int × Int) (m t : Nat) (a : Nat → Int) : Nat → Int :=
  (List.range m).foldl (fun b i => rowGo (F i) t (2 * i * t) t b) a

/-- Embedding of one stage of Multiplier.NTT (Cooley-Tukey butterfly):
u := a[j]; v := a[j+t] * roots[m+i]; a[j] := (u+v) mod q;
a[j+t] := (u-v) mod q. -/
def ctStage (q : Int) (roots : Nat → Int) (m t : Nat) : (Nat → Int) → Nat → Int :=
  blockFold (fun i u v => ((u + v * roots (m + i)) % q, (u - v * roots (m + i)) % q)) m t

/-- Embedding of one stage of Multiplier.INTT (Gentleman-Sande butterfly):
u := a[j]; v := a[j+t]; a[j] := (u+v) mod q;
a[j+t] := (u-v) * rootsInv[h+i] mod q. -/
def gsStage (q : Int) (invRoots : Nat → Int) (h t : Nat) : (Nat → Int) → Nat → Int :=
  blockFold (fun i u v => ((u + v) % q, (u - v) * invRoots (h + i) % q)) h t

/-- Embedding of the Multiplier record from multiplier.go.  The twiddle tables
are modelled as functions from indices to integers. -/
structure Multiplier where
  N : Nat
  Mod : Int
  nInvQ : Int
  rootsBitReverse : Nat → Int
  invRootsBitReverse : Nat → Int

/-- Embedding of NewMultiplier, parameterised by the primitive 2N-th root g
that FindPrimitiveRootOfUnity samples (the sampler is randomised; theorems
assume the contract g^2N = 1 mod q and g^N different from 1 mod q). -/
def NewMultiplier (n : Nat) (q g : Int) : Multiplier where
  N := n
  Mod := q
  nInvQ := modularInverse (n : Int) q
  rootsBitReverse := rootsOfUnityBitReverse n g q
  invRootsBitReverse := rootsOfUnityBitReverse n (modularInverse g q) q

/-- Embedding of Multiplier.NTT from polynomial.go.  For N = 2^k the Go loop
for m := 1; m < n; m = 2*m runs k times with m = 2^s and t = n / 2^(s+1). -/
def Multiplier.NTT (mul : Multiplier) (a : Nat → Int) : Nat → Int :=
  (List.range (log2floor mul.N mul.N)).foldl
    (fun b s => ctStage mul.Mod mul.rootsBitReverse (2 ^ s) (mul.N / 2 ^ (s + 1)) b) a

/-- Embedding of Multiplier.INTT from polynomial.go.  For N = 2^k the Go loop
for m := n; m > 1; m /= 2 runs k times with h = m/2 = n / 2^(s+1) and t = 2^s;
block i starts at j1 = 2*i*t.  The final loop multiplies every coefficient by
nInv and reduces mod q. -/
def Multiplier.INTT (mul : Multiplier) (a : Nat → Int) : Nat → Int :=
  let b := (List.range (log2floor mul.N mul.N)).foldl
    (fun b s => gsStage mul.Mod mul.invRootsBitReverse (mul.N / 2 ^ (s + 1)) (2 ^ s) b) a
  fun j => if j < mul.N then b j * mul.nInvQ % mul.Mod else b j

/-- Embedding of Multiplier.Hadamard: c[i] = a[i] * b[i] mod q. -/
def Multiplier.Hadamard (mul : Multiplier) (a b : Nat → Int) : Nat → Int :=
  fun i => a i * b i % mul.Mod

/-- Embedding of Multiplier.Mul at the level of coefficient functions: copy the
inputs, NTT both, Hadamard-combine, INTT, reduce each coefficient mod q. -/
def Multiplier.MulFn (mul : Multiplier) (x y : Nat → Int) : Nat → Int :=
  let a := mul.NTT x
  let b := mul.NTT y
  let c := mul.Hadamard a b
  let d := mul.INTT c
  fun i => d i % mul.Mod

/-- View of a coefficient list as a coefficient function (entry i of the
slice, with an irrelevant default beyond the length). -/
def toFun (l : List Int) : Nat → Int :=
  fun i => l.getD i 0

/-- Embedding of Multiplier.Mul from multiplier.go: the returned polynomial of
length N. -/
def Multiplier.Mul (mul : Multiplier) (x y : List Int) : List Int :=
  (List.range mul.N).map (fun i => mul.MulFn (toFun x) (toFun y) i)

/-- List-level NTT: the in-place transform applied to a polynomial. -/
def Multiplier.NTTList (mul : Multiplier) (a : List Int) : List Int :=
  (List.range mul.N).map (fun i => mul.NTT (toFun a) i)

/-- List-level INTT: the in-place inverse transform applied to a polynomial. -/
def Multiplier.INTTList (mul : Multiplier) (a : List Int) : List Int :=
  (List.range mul.N).map (fun i => mul.INTT (toFun a) i)

/-- Embedding of Polynomial.symmetricModulus on one coefficient: first the
Euclidean residue val mod q, then subtract q when above q/2, add q when below
-(q/2).  Go big.Int Quo truncates, which for positive q agrees with Lean
integer division. -/
def symmetricModulusCoeff (q v : Int) : Int :=
  let halfMod := q / 2
  let r := v % q
  if r > halfMod then r - q else if r < -halfMod then r + q else r

/-- Embedding of Polynomial.Mod (symmetricModulus applied to every
coefficient). -/
def polyMod (q : Int) (p : List Int) : List Int :=
  p.map (symmetricModulusCoeff q)

/-- Reference negacyclic convolution, stated as in the claim: coefficient idx
collects x[i]*y[j] for i+j = idx and subtracts x[i]*y[j] for i+j = idx+N. -/
def negacyclicRef (n : Nat) (x y : Nat → Int) (idx : Nat) : Int :=
  ∑ i ∈ Finset.range n, ∑ j ∈ Finset.range n,
    if i + j = idx then x i * y j else if i + j = idx + n then -(x i * y j) else 0

/-- Plain full convolution of two length-n coefficient functions (length 2n,
upper entries zero). -/
def fullConv (n : Nat) (x y : Nat → Int) (idx : Nat) : Int :=
  ∑ i ∈ Finset.range n, ∑ j ∈ Finset.range n,
    if i + j = idx then x i * y j else 0

/-- Embedding of the CRTMultiplier record. -/
structure CRTMultiplier where
  PQ : Int
  N : Nat
  pInvQ : Int
  multiplierP : Multiplier
  multiplierQ : Multiplier

/-- Embedding of NewCRTMultiplier, parameterised by the primitive roots used
by the two inner prime-field multipliers. -/
def NewCRTMultiplier (n : Nat) (p q gP gQ : Int) : CRTMultiplier where
  PQ := p * q
  N := n
  pInvQ := modularInverse p q
  multiplierP := NewMultiplier n p gP
  multiplierQ := NewMultiplier n q gQ

/-- Embedding of CRTMultiplier.Mul: a and b are the products modulo p and q,
and each output coefficient is z[i] = (b[i] - a[i]) * pInvQ * p + a[i]
(the Garner step; note the source applies no reduction to z). -/
def CRTMultiplier.Mul (m : CRTMultiplier) (x y : List Int) : List Int :=
  let a := m.multiplierP.Mul x y
  let b := m.multiplierQ.Mul x y
  let p := m.multiplierP.Mod
  (List.range x.length).map
    (fun i => (b.getD i 0 - a.getD i 0) * m.pInvQ * p + a.getD i 0)

/-- Embedding of normInfinite from the ZMultiplier source: the largest
absolute value of a coefficient (the accumulator starts at zero and is
replaced whenever a larger absolute value appears). -/
def normInfinite (pol : List Int) : Int :=
  pol.foldl (fun norm val => if |norm| < |val| then |val| else norm) 0

/-- Embedding of the ZMultiplier record (stateless apart from N). -/
structure ZMultiplier where
  N : Nat

/-- Embedding of the body of ZMultiplier.Mul once the probable prime has been
found: build a prime-field multiplier for that prime, multiply, and reduce
into symmetric form.  The prime search and root sampling are randomised, so
the found prime and root are parameters constrained in the theorems. -/
def ZMultiplier.MulWith (m : ZMultiplier) (prime g : Int) (x y : List Int) : List Int :=
  let modM := NewMultiplier m.N prime g
  let pol := modM.Mul x y
  polyMod prime pol

/-- Candidate sequence of the prime search in ZMultiplier.Mul: the search
starts at 2*N*normInfinite(x)*normInfinite(y) + 1 and advances by 2*N until a
probable prime is reached, so the found prime is the candidate for some j. -/
def zPrimeCandidate (n : Nat) (normX normY : Int) (j : Nat) : Int :=
  2 * (n : Int) * normX * normY + 1 + 2 * (n : Int) * (j : Int)

/-- Embedding of addSlices (element-wise sum of two equal-length slices), a
helper of karatsubaRec whose source file is not among the provided ones;
modelled from the spec description of element-wise addition. -/
def addSlices (x y : List Int) : List Int :=
  List.zipWith (· + ·) x y

/-- Embedding of subSlices (element-wise difference), companion of
addSlices. -/
def subSlices (x y : List Int) : List Int :=
  List.zipWith (· - ·) x y

/-- Embedding of karatsubaRec from polynomial.go.  A slice of length one
multiplies directly; otherwise the halves are combined through the cross term
z1 - z2 - z0; length-two slices place the three products directly with a zero
pad.  The source rejects empty or non power-of-two slices via a panic, which
is modelled by returning the empty list on length zero. -/
def karatsubaRec (x y : List Int) : List Int :=
  if x.length = 1 then
    [x.getD 0 0 * y.getD 0 0]
  else if x.length = 0 then
    []
  else
    let l := x.length
    let xL := x.take (l / 2)
    let xR := x.drop (l / 2)
    let yL := y.take (l / 2)
    let yR := y.drop (l / 2)
    let z0 := karatsubaRec xL yL
    let z1 := karatsubaRec (addSlices xL xR) (addSlices yL yR)
    let z2 := karatsubaRec xR yR
    let crossTerm := subSlices (subSlices z1 z2) z0
    if crossTerm.length = 1 then
      z0 ++ crossTerm ++ (z2 ++ [0])
    else
      let crossL := List.replicate (l / 2) 0 ++ crossTerm.take (l / 2)
      let crossR := crossTerm.drop (l / 2) ++ List.replicate (l / 2) 0
      addSlices z0 crossL ++ addSlices z2 crossR
termination_by x.length
decreasing_by
  · simp only [List.length_take]
    omega
  · simp only [addSlices, List.length_zipWith, List.length_take, List.length_drop]
    omega
  · simp only [List.length_drop]
    omega

/-- The fold loop of Karatsuba from polynomial.go on the recursion result:
out[i] = karat[i] - karat[i + N] for i in [0, N). -/
def karatsubaFold (p q : List Int) : List Int :=
  (List.range p.length).map
    (fun i => (karatsubaRec p q).getD i 0 - (karatsubaRec p q).getD (i + p.length) 0)

/-- Embedding of Karatsuba from polynomial.go: the negacyclic fold of the
recursion result.  The fold loop reads karat[i + N]; when the recursion
result is shorter than 2N - which happens exactly for length-1 inputs, whose
recursion result has length 1 - that read is out of range and the Go runtime
panics, modelled by none.  The power-of-two guard panic of the source is a
precondition of every statement below (all stated inputs have length 2^k),
so it is not modelled separately. -/
def Karatsuba (p q : List Int) : Option (List Int) :=
  if 2 * p.length ≤ (karatsubaRec p q).length then some (karatsubaFold p q) else none

/-- Embedding of HammingWeight from the sampling source: the number of
non-zero coordinates. -/
def HammingWeight (v : List Int) : Nat :=
  (v.filter (fun e => e ≠ 0)).length

/-- Worker loop of HWT.  The Go loop draws an index; on collision it retries
(the i-- branch), otherwise it draws a coin, writes +1 when the coin is zero,
and then unconditionally overwrites the slot with -1.  Randomness is modelled
by the stream of draws (an index draw is reduced mod dim, a coin draw mod 2)
and the unbounded retry loop by fuel; exhausted fuel stands for a
non-terminating run and yields none. -/
def hwtGo (dim : Nat) (stream : Nat → Nat) :
    Nat → List Int → Nat → Nat → Option (List Int)
  | _, vec, 0, _ => some vec
  | 0, _, _ + 1, _ => none
  | fuel + 1, vec, remaining + 1, pos =>
    let index := stream pos % dim
    if vec.getD index 0 ≠ 0 then
      hwtGo dim stream fuel vec (remaining + 1) (pos + 1)
    else
      let coin := stream (pos + 1) % 2
      let vec1 := if coin = 0 then vec.set index 1 else vec
      let vec2 := vec1.set index (-1)
      hwtGo dim stream fuel vec2 remaining (pos + 2)

/-- Embedding of HWT from the sampling source: when hamming exceeds dim it
returns the typed error value; otherwise it runs the sampling loop on a zero
vector.  The ok and error constructors model the Go return values (vec, nil)
and (nil, error). -/
def HWT (dim hamming : Nat) (stream : Nat → Nat) (fuel : Nat) :
    Option (Except String (List Int)) :=
  if hamming > dim then
    some (Except.error "impossible hamming weight")
  else
    (hwtGo dim stream fuel (List.replicate dim 0) hamming 0).map Except.ok

/-!
Pointwise characterisation of the butterfly loops.  Butterflies inside one
stage touch pairwise disjoint index pairs, so a whole stage acts on every
position by a single two-point formula reading the original array.
-/

theorem rowGo_succ (f : Int → Int → Int × Int) (t j1 c : Nat) (a : Nat → Int) :
    rowGo f t j1 (c + 1) a = pairOp f t (j1 + c) (rowGo f t j1 c a) := by
  simp [rowGo, List.range_succ]

theorem rowGo_apply (f : Int → Int → Int × Int) (t j1 : Nat) (a : Nat → Int) :
    ∀ c ≤ t, ∀ idx,
      rowGo f t j1 c a idx =
        if j1 ≤ idx ∧ idx < j1 + c then (f (a idx) (a (idx + t))).1
        else if j1 + t ≤ idx ∧ idx < j1 + t + c then (f (a (idx - t)) (a idx)).2
        else a idx := by
  intro c
  induction c with
  | zero =>
    intro _ idx
    simp only [rowGo, List.range_zero, List.foldl_nil]
    rw [if_neg (by omega), if_neg (by omega)]
  | succ c ih =>
    intro hct idx
    have hct' : c ≤ t := by omega
    have hb1 : rowGo f t j1 c a (j1 + c) = a (j1 + c) := by
      rw [ih hct' (j1 + c), if_neg (by omega), if_neg (by omega)]
    have hb2 : rowGo f t j1 c a (j1 + c + t) = a (j1 + c + t) := by
      rw [ih hct' (j1 + c + t), if_neg (by omega), if_neg (by omega)]
    rw [rowGo_succ]
    unfold pairOp
    by_cases h1 : idx = j1 + c
    · subst h1
      rw [if_pos rfl, hb1, hb2]
      rw [if_pos (by omega)]
    · by_cases h2 : idx = j1 + c + t
      · subst h2
        rw [if_neg h1, if_pos rfl, hb1, hb2]
        have hsub : j1 + c + t - t = j1 + c := by omega
        rw [if_neg (by omega), if_pos (by omega), hsub]
      · rw [if_neg h1, if_neg h2, ih hct' idx]
        split_ifs <;> first | rfl | omega

theorem blockFold_succ (F : Nat → Int → Int → Int × Int) (m t : Nat) (a : Nat → Int) :
    blockFold F (m + 1) t a = rowGo (F m) t (2 * m * t) t (blockFold F m t a) := by
  simp [blockFold, List.range_succ]

theorem blockFold_apply_ge (F : Nat → Int → Int → Int × Int) (t : Nat) (a : Nat → Int) :
    ∀ m, ∀ idx, 2 * m * t ≤ idx → blockFold F m t a idx = a idx := by
  intro m
  induction m with
  | zero =>
    intro idx _
    simp [blockFold]
  | succ m ih =>
    intro idx hidx
    have key : 2 * (m + 1) * t = 2 * m * t + 2 * t := by ring
    rw [blockFold_succ, rowGo_apply (F m) t (2 * m * t) _ t le_rfl idx,
      if_neg (by omega), if_neg (by omega)]
    exact ih idx (by omega)

theorem blockFold_apply_lt (F : Nat → Int → Int → Int × Int) (t : Nat) (a : Nat → Int) :
    ∀ m, ∀ i < m, ∀ r < 2 * t,
      blockFold F m t a (2 * i * t + r) =
        if r < t then (F i (a (2 * i * t + r)) (a (2 * i * t + r + t))).1
        else (F i (a (2 * i * t + r - t)) (a (2 * i * t + r))).2 := by
  intro m
  induction m with
  | zero =>
    intro i hi
    omega
  | succ m ih =>
    intro i hi r hr
    rw [blockFold_succ]
    by_cases him : i < m
    · have key : 2 * i * t + 2 * t ≤ 2 * m * t := by
        calc 2 * i * t + 2 * t = (i + 1) * (2 * t) := by ring
          _ ≤ m * (2 * t) := Nat.mul_le_mul_right _ him
          _ = 2 * m * t := by ring
      rw [rowGo_apply (F m) t (2 * m * t) _ t le_rfl _,
        if_neg (by omega), if_neg (by omega)]
      exact ih i him r hr
    · have hieq : i = m := by omega
      subst hieq
      rw [rowGo_apply (F i) t (2 * i * t) _ t le_rfl _]
      by_cases hrt : r < t
      · rw [if_pos (by omega), if_pos hrt,
          blockFold_apply_ge F t a i _ (by omega),
          blockFold_apply_ge F t a i _ (by omega)]
      · rw [if_neg (by omega), if_pos (by omega), if_neg hrt,
          blockFold_apply_ge F t a i _ (by omega),
          blockFold_apply_ge F t a i _ (by omega)]

/-!
Arithmetic helpers: casting Euclidean residues into ZMod, the contract of the
modelled modular inverse, bit reversal identities, and an even-odd sum split.
-/

theorem intCast_emod (q : Nat) (a : Int) : ((a % (q : Int) : Int) : ZMod q) = (a : ZMod q) := by
  rw [ZMod.intCast_eq_intCast_iff]
  exact Int.emod_emod_of_dvd a dvd_rfl

theorem modularInverse_mul {q : Nat} {a : Int} (hq : q.Prime)
    (hcop : Int.gcd a (q : Int) = 1) :
    ((modularInverse a (q : Int) : Int) : ZMod q) * (a : ZMod q) = 1 := by
  haveI : Fact q.Prime := ⟨hq⟩
  unfold modularInverse
  rw [intCast_emod]
  push_cast
  have ha : (a : ZMod q) ≠ 0 := by
    intro h0
    rw [ZMod.intCast_zmod_eq_zero_iff_dvd] at h0
    have hdq : ((q : Int)).natAbs ∣ Int.gcd a (q : Int) :=
      Int.natAbs_dvd_natAbs.mpr (Int.dvd_gcd h0 dvd_rfl)
    rw [hcop] at hdq
    have hdq2 : q ∣ 1 := by simpa using hdq
    have := Nat.le_of_dvd one_pos hdq2
    have := hq.two_le
    omega
  have hexp : ((q : Int) - 2).toNat + 1 = q - 1 := by
    have h2 : 2 ≤ q := hq.two_le
    omega
  calc (a : ZMod q) ^ ((q : Int) - 2).toNat * (a : ZMod q) =
      (a : ZMod q) ^ (((q : Int) - 2).toNat + 1) := by rw [pow_succ]
    _ = (a : ZMod q) ^ (q - 1) := by rw [hexp]
    _ = 1 := ZMod.pow_card_sub_one_eq_one ha

theorem gcd_eq_one_of_pow_cast_one {q : Nat} {g : Int} {e : Nat} (hq : q.Prime)
    (he : e ≠ 0) (h1 : (g : ZMod q) ^ e = 1) : Int.gcd g (q : Int) = 1 := by
  haveI : Fact q.Prime := ⟨hq⟩
  have hdvd : Int.gcd g (q : Int) ∣ q := by
    have := Int.gcd_dvd_right (a := g) (b := (q : Int))
    exact Int.ofNat_dvd.mp (by simpa using this)
  rcases (Nat.Prime.eq_one_or_self_of_dvd hq _ hdvd) with h | h
  · exact h
  · exfalso
    have hqg : (q : Int) ∣ g := by
      have := Int.gcd_dvd_left (a := g) (b := (q : Int))
      rw [h] at this
      exact this
    have hzero : (g : ZMod q) = 0 := (ZMod.intCast_zmod_eq_zero_iff_dvd g q).mpr hqg
    rw [hzero, zero_pow he] at h1
    exact zero_ne_one h1

theorem bitReverse_zero_right : ∀ k, bitReverse k 0 = 0
  | 0 => rfl
  | k + 1 => by simp [bitReverse, bitReverse_zero_right k]

theorem bitReverse_pow_add :
    ∀ s k c, s < k → c < 2 ^ s →
      bitReverse k (2 ^ s + c) = (2 * bitReverse s c + 1) * 2 ^ (k - 1 - s) := by
  intro s
  induction s with
  | zero =>
    intro k c hk hc
    interval_cases c
    rcases k with _ | k'
    · omega
    · show bitReverse k' ((2 ^ 0 + 0) / 2) + (2 ^ 0 + 0) % 2 * 2 ^ k' = _
      norm_num [bitReverse_zero_right]
  | succ s ih =>
    intro k c hk hc
    rcases k with _ | k'
    · omega
    have hsk : s < k' := by omega
    have hdiv : (2 ^ (s + 1) + c) / 2 = 2 ^ s + c / 2 := by
      have h2 : 2 ^ (s + 1) = 2 * 2 ^ s := by ring
      omega
    have hmod : (2 ^ (s + 1) + c) % 2 = c % 2 := by
      have h2 : 2 ^ (s + 1) = 2 * 2 ^ s := by ring
      omega
    have hc2 : c / 2 < 2 ^ s := by
      have h2 : 2 ^ (s + 1) = 2 * 2 ^ s := by ring
      omega
    have hbr : bitReverse (s + 1) c = bitReverse s (c / 2) + c % 2 * 2 ^ s := rfl
    show bitReverse k' ((2 ^ (s + 1) + c) / 2) + (2 ^ (s + 1) + c) % 2 * 2 ^ k' = _
    rw [hdiv, hmod, ih k' (c / 2) hsk hc2, hbr]
    have hexp : k' + 1 - 1 - (s + 1) = k' - 1 - s := by omega
    rw [hexp]
    have hpow : 2 ^ s * 2 ^ (k' - 1 - s) * 2 = 2 ^ k' := by
      rw [mul_assoc, ← pow_succ 2 (k' - 1 - s), ← pow_add]
      congr 1
      omega
    rcases Nat.mod_two_eq_zero_or_one c with h | h <;> rw [h]
    · ring
    · nlinarith [hpow]

theorem sum_range_even_odd {β : Type} [AddCommMonoid β] (M : Nat) (f : Nat → β) :
    ∑ u ∈ Finset.range (2 * M), f u =
      (∑ v ∈ Finset.range M, f (2 * v)) + ∑ v ∈ Finset.range M, f (2 * v + 1) := by
  induction M with
  | zero => simp
  | succ M ih =>
    have h2 : 2 * (M + 1) = 2 * M + 1 + 1 := by ring
    rw [h2, Finset.sum_range_succ, Finset.sum_range_succ, Finset.sum_range_succ,
      Finset.sum_range_succ, ih]
    abel

/-!
Properties of the sampled primitive 2N-th root of unity, seen inside ZMod q.
-/

theorem log2floor_pow_le : ∀ k fuel, 2 ^ k ≤ fuel → log2floor fuel (2 ^ k) = k := by
  intro k
  induction k with
  | zero =>
    intro fuel _
    rcases fuel with _ | f
    · rfl
    · show (if (2 : Nat) ^ 0 ≥ 2 then log2floor f (2 ^ 0 / 2) + 1 else 0) = 0
      norm_num
  | succ k ih =>
    intro fuel hfuel
    have h2 : (2 : Nat) ^ (k + 1) = 2 * 2 ^ k := by rw [← pow_succ']
    have h1 : (1 : Nat) ≤ 2 ^ k := Nat.one_le_two_pow
    rcases fuel with _ | f
    · omega
    show (if (2 : Nat) ^ (k + 1) ≥ 2 then log2floor f (2 ^ (k + 1) / 2) + 1 else 0) = k + 1
    have hdiv : (2 : Nat) ^ (k + 1) / 2 = 2 ^ k := by omega
    rw [if_pos (by omega), hdiv, ih f (by omega)]

theorem log2_two_pow (k : Nat) : log2floor (2 ^ k) (2 ^ k) = k :=
  log2floor_pow_le k (2 ^ k) le_rfl

theorem cast_pow_two_n_eq_one {k q : Nat} {g : Int}
    (hg1 : g ^ (2 * 2 ^ k) ≡ 1 [ZMOD (q : Int)]) : (g : ZMod q) ^ (2 * 2 ^ k) = 1 := by
  have h := (ZMod.intCast_eq_intCast_iff _ _ _).mpr hg1
  push_cast at h
  exact h

theorem root_pow_n_neg_one {k q : Nat} {g : Int} (hq : q.Prime)
    (hg1 : g ^ (2 * 2 ^ k) ≡ 1 [ZMOD (q : Int)]) (hg2 : ¬ g ^ 2 ^ k ≡ 1 [ZMOD (q : Int)]) :
    (g : ZMod q) ^ 2 ^ k = -1 := by
  haveI : Fact q.Prime := ⟨hq⟩
  set x : ZMod q := (g : ZMod q) ^ 2 ^ k with hx
  have hx2 : x ^ 2 = 1 := by
    rw [hx, ← pow_mul]
    have harg : 2 ^ k * 2 = 2 * 2 ^ k := by ring
    rw [harg]
    exact cast_pow_two_n_eq_one hg1
  have hxne : x ≠ 1 := by
    intro hcontra
    apply hg2
    rw [← ZMod.intCast_eq_intCast_iff]
    push_cast
    exact hcontra
  have hfac : (x - 1) * (x + 1) = 0 := by
    have h2 : x ^ 2 - 1 = 0 := by rw [hx2]; ring
    calc (x - 1) * (x + 1) = x ^ 2 - 1 := by ring
      _ = 0 := h2
  rcases mul_eq_zero.mp hfac with h | h
  · exact absurd (by linear_combination h) hxne
  · linear_combination h

theorem root_gcd_one {k q : Nat} {g : Int} (hq : q.Prime)
    (hg1 : g ^ (2 * 2 ^ k) ≡ 1 [ZMOD (q : Int)]) : Int.gcd g (q : Int) = 1 :=
  gcd_eq_one_of_pow_cast_one hq (by positivity) (cast_pow_two_n_eq_one hg1)

theorem roots_table_cast {k q : Nat} (g : Int) (j : Nat) :
    ((rootsOfUnityBitReverse (2 ^ k) g (q : Int) j : Int) : ZMod q) =
      (g : ZMod q) ^ bitReverse k j := by
  unfold rootsOfUnityBitReverse
  rw [log2_two_pow, intCast_emod]
  push_cast
  rfl

/-!
Evaluation semantics of the forward NTT.  After s stages the array splits into
2^s blocks; block c holds the reduction of the input modulo
X^(2^(k-s)) - g^(2^(k-s) * (2 * bitrev(c, s) + 1)), written out as the folded
sub-sums below.  After all k stages, entry c holds the evaluation of the input
at g^(2 * bitrev(c, k) + 1).
-/

/-- Prefix of the forward transform consisting of the first s stages. -/
def nttPartial (q : Int) (roots : Nat → Int) (n s : Nat) (a : Nat → Int) : Nat → Int :=
  (List.range s).foldl (fun b i => ctStage q roots (2 ^ i) (n / 2 ^ (i + 1)) b) a

theorem nttPartial_succ (q : Int) (roots : Nat → Int) (n s : Nat) (a : Nat → Int) :
    nttPartial q roots n (s + 1) a =
      ctStage q roots (2 ^ s) (n / 2 ^ (s + 1)) (nttPartial q roots n s a) := by
  simp [nttPartial, List.range_succ]

theorem NTT_eq_nttPartial (k : Nat) (q g : Int) (a : Nat → Int) :
    (NewMultiplier (2 ^ k) q g).NTT a =
      nttPartial q (rootsOfUnityBitReverse (2 ^ k) g q) (2 ^ k) k a := by
  unfold Multiplier.NTT nttPartial NewMultiplier
  rw [log2_two_pow]


theorem bitReverse_two_mul (s c : Nat) : bitReverse (s + 1) (2 * c) = bitReverse s c := by
  show bitReverse s (2 * c / 2) + 2 * c % 2 * 2 ^ s = _
  have h1 : 2 * c / 2 = c := by omega
  have h2 : 2 * c % 2 = 0 := by omega
  rw [h1, h2, zero_mul, add_zero]

theorem bitReverse_two_mul_add_one (s c : Nat) :
    bitReverse (s + 1) (2 * c + 1) = bitReverse s c + 2 ^ s := by
  show bitReverse s ((2 * c + 1) / 2) + (2 * c + 1) % 2 * 2 ^ s = _
  have h1 : (2 * c + 1) / 2 = c := by omega
  have h2 : (2 * c + 1) % 2 = 1 := by omega
  rw [h1, h2, one_mul]

theorem ctStage_apply_lt (q : Int) (roots : Nat → Int) (m t : Nat) (a : Nat → Int)
    (i : Nat) (hi : i < m) (r : Nat) (hr : r < 2 * t) :
    ctStage q roots m t a (2 * i * t + r) =
      if r < t then (a (2 * i * t + r) + a (2 * i * t + r + t) * roots (m + i)) % q
      else (a (2 * i * t + r - t) - a (2 * i * t + r) * roots (m + i)) % q := by
  unfold ctStage
  rw [blockFold_apply_lt _ t _ m i hi r hr]

theorem ctStage_apply_ge (q : Int) (roots : Nat → Int) (m t : Nat) (a : Nat → Int)
    (idx : Nat) (hidx : 2 * m * t ≤ idx) : ctStage q roots m t a idx = a idx := by
  unfold ctStage
  exact blockFold_apply_ge _ t a m idx hidx

theorem gsStage_apply_lt (q : Int) (invRoots : Nat → Int) (h t : Nat) (a : Nat → Int)
    (i : Nat) (hi : i < h) (r : Nat) (hr : r < 2 * t) :
    gsStage q invRoots h t a (2 * i * t + r) =
      if r < t then (a (2 * i * t + r) + a (2 * i * t + r + t)) % q
      else (a (2 * i * t + r - t) - a (2 * i * t + r)) * invRoots (h + i) % q := by
  unfold gsStage
  rw [blockFold_apply_lt _ t _ h i hi r hr]

theorem gsStage_apply_ge (q : Int) (invRoots : Nat → Int) (h t : Nat) (a : Nat → Int)
    (idx : Nat) (hidx : 2 * h * t ≤ idx) : gsStage q invRoots h t a idx = a idx := by
  unfold gsStage
  exact blockFold_apply_ge _ t a h idx hidx

theorem nttPartial_eval {k q : Nat} {g : Int} (hq : q.Prime)
    (hg1 : g ^ (2 * 2 ^ k) ≡ 1 [ZMOD (q : Int)]) (hg2 : ¬ g ^ 2 ^ k ≡ 1 [ZMOD (q : Int)])
    (x : Nat → Int) :
    ∀ s, s ≤ k → ∀ c, c < 2 ^ s → ∀ r, r < 2 ^ (k - s) →
      ((nttPartial (q : Int) (rootsOfUnityBitReverse (2 ^ k) g (q : Int)) (2 ^ k) s x
          (c * 2 ^ (k - s) + r) : Int) : ZMod q) =
        ∑ u ∈ Finset.range (2 ^ s),
          ((x (r + u * 2 ^ (k - s)) : Int) : ZMod q) *
            (g : ZMod q) ^ (2 ^ (k - s) * (2 * bitReverse s c + 1) * u) := by
  intro s
  induction s with
  | zero =>
    intro _ c hc r hr
    have hc0 : c = 0 := by
      rw [pow_zero] at hc
      omega
    subst hc0
    simp [nttPartial]
  | succ s ih =>
    intro hsk c hc r hr
    have hsk' : s ≤ k := by omega
    have hT : (2 : Nat) ^ k / 2 ^ (s + 1) = 2 ^ (k - s - 1) := by
      rw [Nat.pow_div (by omega) two_pos]
      congr 1
    have hks1 : k - (s + 1) = k - s - 1 := by omega
    set T : Nat := 2 ^ (k - s - 1) with hTdef
    have h2T : (2 : Nat) ^ (k - s) = 2 * T := by
      rw [hTdef, ← pow_succ']
      congr 1
      omega
    have hTpos : 1 ≤ T := Nat.one_le_two_pow
    have hT2s : 2 * T * 2 ^ s = 2 ^ k := by
      have e1 : 2 * 2 ^ (k - s - 1) * 2 ^ s = 2 ^ (1 + (k - s - 1) + s) := by
        rw [pow_add, pow_add]
        ring
      rw [hTdef, e1]
      congr 1
      omega
    set c' : Nat := c / 2 with hc'def
    have hc' : c' < 2 ^ s := by
      have h2s : (2 : Nat) ^ (s + 1) = 2 * 2 ^ s := by rw [← pow_succ']
      omega
    have hsplit : (2 : Nat) ^ (s + 1) = 2 * 2 ^ s := by rw [← pow_succ']
    rw [hks1, ← hTdef] at hr
    rw [nttPartial_succ, hT, hks1, ← hTdef]
    -- twiddle factor value
    have htw : ((rootsOfUnityBitReverse (2 ^ k) g (q : Int) (2 ^ s + c') : Int) : ZMod q) =
        (g : ZMod q) ^ (T * (2 * bitReverse s c' + 1)) := by
      rw [roots_table_cast, bitReverse_pow_add s k c' (by omega) hc']
      have hexp : (2 * bitReverse s c' + 1) * 2 ^ (k - 1 - s) =
          T * (2 * bitReverse s c' + 1) := by
        rw [hTdef]
        have he : k - 1 - s = k - s - 1 := by omega
        rw [he]
        ring
      rw [hexp]
    -- both half-block sums, in canonical form
    have hIH1 : ∀ ρ, ρ < 2 * T →
        ((nttPartial (q : Int) (rootsOfUnityBitReverse (2 ^ k) g (q : Int)) (2 ^ k) s x
            (2 * c' * T + ρ) : Int) : ZMod q) =
          ∑ v ∈ Finset.range (2 ^ s),
            ((x (ρ + v * (2 * T)) : Int) : ZMod q) *
              ((g : ZMod q) ^ (T * (2 * bitReverse s c' + 1))) ^ (2 * v) := by
      intro ρ hρ
      have harg : 2 * c' * T + ρ = c' * (2 * T) + ρ := by ring
      rw [harg]
      have h := ih hsk' c' hc' ρ (by omega)
      rw [h2T] at h
      rw [h]
      refine Finset.sum_congr rfl fun v _ => ?_
      rw [← pow_mul]
      have hexp : 2 * T * (2 * bitReverse s c' + 1) * v =
          T * (2 * bitReverse s c' + 1) * (2 * v) := by ring
      rw [hexp]
    rcases Nat.mod_two_eq_zero_or_one c with hpar | hpar
    · -- even block index: Cooley-Tukey plus branch
      have hceq : c = 2 * c' := by omega
      have hbrc : bitReverse (s + 1) c = bitReverse s c' := by
        rw [hceq, bitReverse_two_mul]
      have hidx : c * T + r = 2 * c' * T + r := by
        conv_lhs => rw [hceq]
      rw [hbrc, hidx]
      rw [ctStage_apply_lt _ _ _ _ _ c' hc' r (by omega), if_pos (by omega)]
      rw [intCast_emod]
      push_cast
      rw [htw, hIH1 r (by omega)]
      have hargT : 2 * c' * T + r + T = 2 * c' * T + (r + T) := by omega
      rw [hargT, hIH1 (r + T) (by omega)]
      rw [hsplit, sum_range_even_odd]
      congr 1
      · refine Finset.sum_congr rfl fun v _ => ?_
        have harg : r + 2 * v * T = r + v * (2 * T) := by ring
        rw [harg, ← pow_mul]
      · rw [Finset.sum_mul]
        refine Finset.sum_congr rfl fun v _ => ?_
        have harg : r + (2 * v + 1) * T = r + T + v * (2 * T) := by ring
        rw [harg, mul_assoc, ← pow_mul, ← pow_add]
        have hexp : T * (2 * bitReverse s c' + 1) * (2 * v) +
            T * (2 * bitReverse s c' + 1) =
            T * (2 * bitReverse s c' + 1) * (2 * v + 1) := by ring
        rw [hexp]
    · -- odd block index: Cooley-Tukey minus branch, with g ^ 2^k = -1
      have hneg : (g : ZMod q) ^ 2 ^ k = -1 := root_pow_n_neg_one hq hg1 hg2
      have hceq : c = 2 * c' + 1 := by omega
      have hbrc : bitReverse (s + 1) c = bitReverse s c' + 2 ^ s := by
        rw [hceq, bitReverse_two_mul_add_one]
      have hidx : c * T + r = 2 * c' * T + (T + r) := by
        conv_lhs => rw [hceq]
        ring
      rw [hbrc, hidx]
      rw [ctStage_apply_lt _ _ _ _ _ c' hc' (T + r) (by omega), if_neg (by omega)]
      have hsub : 2 * c' * T + (T + r) - T = 2 * c' * T + r := by omega
      rw [hsub]
      rw [intCast_emod]
      push_cast
      rw [htw, hIH1 r (by omega)]
      have hargT : 2 * c' * T + (T + r) = 2 * c' * T + (r + T) := by omega
      rw [hargT, hIH1 (r + T) (by omega)]
      have hWp : T * (2 * (bitReverse s c' + 2 ^ s) + 1) =
          T * (2 * bitReverse s c' + 1) + 2 ^ k := by
        rw [← hT2s]
        ring
      rw [hWp, hsplit, sum_range_even_odd]
      rw [sub_eq_add_neg]
      congr 1
      · refine Finset.sum_congr rfl fun v _ => ?_
        have harg : r + 2 * v * T = r + v * (2 * T) := by ring
        rw [harg]
        have hexp : (T * (2 * bitReverse s c' + 1) + 2 ^ k) * (2 * v) =
            T * (2 * bitReverse s c' + 1) * (2 * v) + 2 ^ k * (2 * v) := by ring
        rw [hexp, pow_add, pow_mul (g : ZMod q) (2 ^ k) (2 * v), hneg]
        have hm1 : ((-1 : ZMod q)) ^ (2 * v) = 1 := by
          rw [pow_mul]
          norm_num
        rw [hm1, mul_one, ← pow_mul]
      · rw [Finset.sum_mul, ← Finset.sum_neg_distrib]
        refine Finset.sum_congr rfl fun v _ => ?_
        have harg : r + (2 * v + 1) * T = r + T + v * (2 * T) := by ring
        rw [harg]
        have hexp : (T * (2 * bitReverse s c' + 1) + 2 ^ k) * (2 * v + 1) =
            (T * (2 * bitReverse s c' + 1) * (2 * v) + T * (2 * bitReverse s c' + 1)) +
              2 ^ k * (2 * v + 1) := by ring
        rw [hexp, pow_add, pow_add, pow_mul (g : ZMod q) (2 ^ k) (2 * v + 1), hneg]
        have hm1 : ((-1 : ZMod q)) ^ (2 * v + 1) = -1 := by
          rw [pow_add, pow_mul]
          norm_num
        rw [hm1, mul_assoc, ← pow_mul, ← pow_add]
        have hexp2 : T * (2 * bitReverse s c' + 1) * (2 * v) +
            T * (2 * bitReverse s c' + 1) =
            T * (2 * bitReverse s c' + 1) * (2 * v + 1) := by ring
        rw [hexp2]
        ring


/-!
Round trip: each Gentleman-Sande stage undoes the Cooley-Tukey stage with the
same block layout up to one factor of two, and the final multiplication by
nInv removes the accumulated factor N.
-/

theorem two_mul_block_decomp (m t idx : Nat) (ht : 1 ≤ t) (hidx : idx < 2 * m * t) :
    ∃ i, i < m ∧ ∃ r, r < 2 * t ∧ idx = 2 * i * t + r := by
  refine ⟨idx / (2 * t), ?_, idx % (2 * t), Nat.mod_lt _ (by omega), ?_⟩
  · rw [Nat.div_lt_iff_lt_mul (by omega)]
    calc idx < 2 * m * t := hidx
      _ = m * (2 * t) := by ring
  · have h := Nat.div_add_mod idx (2 * t)
    have h2 : 2 * (idx / (2 * t)) * t = 2 * t * (idx / (2 * t)) := by ring
    omega

theorem stage_m_t_id (k s : Nat) (h : s < k) : 2 * (2 ^ k / 2 ^ (s + 1)) * 2 ^ s = 2 ^ k := by
  rw [Nat.pow_div (by omega) two_pos]
  have e : 2 * 2 ^ (k - (s + 1)) * 2 ^ s = 2 ^ (1 + (k - (s + 1)) + s) := by
    rw [pow_add, pow_add]
    ring
  rw [e]
  congr 1
  omega

theorem gs_ct_cancel {q : Nat} (R invR : Nat → Int) (m t : Nat) (ht : 1 ≤ t)
    (hinv : ∀ i, i < m → ((invR (m + i) : Int) : ZMod q) * ((R (m + i) : Int) : ZMod q) = 1)
    (a : Nat → Int) (idx : Nat) (hidx : idx < 2 * m * t) :
    ((gsStage (q : Int) invR m t (ctStage (q : Int) R m t a) idx : Int) : ZMod q) =
      2 * ((a idx : Int) : ZMod q) := by
  obtain ⟨i, hi, r, hr, rfl⟩ := two_mul_block_decomp m t idx ht hidx
  rw [gsStage_apply_lt _ _ _ _ _ i hi r hr]
  by_cases hrt : r < t
  · rw [if_pos hrt]
    have hargT : 2 * i * t + r + t = 2 * i * t + (r + t) := by omega
    rw [hargT, ctStage_apply_lt _ _ _ _ _ i hi r hr, if_pos hrt,
      ctStage_apply_lt _ _ _ _ _ i hi (r + t) (by omega), if_neg (by omega)]
    have hsub : 2 * i * t + (r + t) - t = 2 * i * t + r := by omega
    rw [hsub, hargT, intCast_emod]
    push_cast
    ring
  · rw [if_neg hrt]
    have hsub : 2 * i * t + r - t = 2 * i * t + (r - t) := by omega
    rw [hsub, ctStage_apply_lt _ _ _ _ _ i hi (r - t) (by omega), if_pos (by omega),
      ctStage_apply_lt _ _ _ _ _ i hi r hr, if_neg hrt]
    have hadd : 2 * i * t + (r - t) + t = 2 * i * t + r := by omega
    rw [hadd, hsub, intCast_emod]
    push_cast
    linear_combination (2 * ((a (2 * i * t + r) : Int) : ZMod q)) * hinv i hi

theorem gsStage_cast_scalar {q : Nat} (invR : Nat → Int) (m t : Nat) (ht : 1 ≤ t)
    (z : ZMod q) (A B : Nat → Int)
    (hAB : ∀ idx, idx < 2 * m * t → ((A idx : Int) : ZMod q) = z * ((B idx : Int) : ZMod q)) :
    ∀ idx, idx < 2 * m * t →
      ((gsStage (q : Int) invR m t A idx : Int) : ZMod q) =
        z * ((gsStage (q : Int) invR m t B idx : Int) : ZMod q) := by
  intro idx hidx
  obtain ⟨i, hi, r, hr, rfl⟩ := two_mul_block_decomp m t idx ht hidx
  have hb : 2 * i * t + 2 * t ≤ 2 * m * t := by
    calc 2 * i * t + 2 * t = (i + 1) * (2 * t) := by ring
      _ ≤ m * (2 * t) := Nat.mul_le_mul_right _ hi
      _ = 2 * m * t := by ring
  rw [gsStage_apply_lt _ _ _ _ _ i hi r hr, gsStage_apply_lt _ _ _ _ _ i hi r hr]
  by_cases hrt : r < t
  · rw [if_pos hrt, if_pos hrt, intCast_emod, intCast_emod]
    push_cast
    rw [hAB _ (by omega), hAB _ (by omega)]
    ring
  · rw [if_neg hrt, if_neg hrt, intCast_emod, intCast_emod]
    push_cast
    rw [hAB _ (by omega), hAB _ (by omega)]
    ring

theorem gsStage_ext (q : Int) (invR : Nat → Int) (m t : Nat) (ht : 1 ≤ t)
    (A B : Nat → Int)
    (hAB : ∀ idx, idx < 2 * m * t → A idx = B idx) :
    ∀ idx, idx < 2 * m * t → gsStage q invR m t A idx = gsStage q invR m t B idx := by
  intro idx hidx
  obtain ⟨i, hi, r, hr, rfl⟩ := two_mul_block_decomp m t idx ht hidx
  have hb : 2 * i * t + 2 * t ≤ 2 * m * t := by
    calc 2 * i * t + 2 * t = (i + 1) * (2 * t) := by ring
      _ ≤ m * (2 * t) := Nat.mul_le_mul_right _ hi
      _ = 2 * m * t := by ring
  rw [gsStage_apply_lt _ _ _ _ _ i hi r hr, gsStage_apply_lt _ _ _ _ _ i hi r hr]
  by_cases hrt : r < t
  · rw [if_pos hrt, if_pos hrt, hAB _ (by omega), hAB _ (by omega)]
  · rw [if_neg hrt, if_neg hrt, hAB _ (by omega), hAB _ (by omega)]

/-- Prefix of the inverse transform consisting of the first j stages. -/
def inttStages (q : Int) (invRoots : Nat → Int) (n j : Nat) (a : Nat → Int) : Nat → Int :=
  (List.range j).foldl (fun b s => gsStage q invRoots (n / 2 ^ (s + 1)) (2 ^ s) b) a

theorem inttStages_succ (q : Int) (invRoots : Nat → Int) (n j : Nat) (a : Nat → Int) :
    inttStages q invRoots n (j + 1) a =
      gsStage q invRoots (n / 2 ^ (j + 1)) (2 ^ j) (inttStages q invRoots n j a) := by
  simp [inttStages, List.range_succ]

theorem INTT_eq_inttStages (k : Nat) (q g : Int) (a : Nat → Int) (j : Nat) :
    (NewMultiplier (2 ^ k) q g).INTT a j =
      if j < 2 ^ k then
        inttStages q (rootsOfUnityBitReverse (2 ^ k) (modularInverse g q) q) (2 ^ k) k a j *
          modularInverse ((2 ^ k : Nat) : Int) q % q
      else inttStages q (rootsOfUnityBitReverse (2 ^ k) (modularInverse g q) q) (2 ^ k) k a j := by
  unfold Multiplier.INTT inttStages NewMultiplier
  rw [log2_two_pow]

theorem inttStages_cast_scalar {k q : Nat} (invR : Nat → Int) (z : ZMod q) (A B : Nat → Int)
    (hAB : ∀ idx, idx < 2 ^ k → ((A idx : Int) : ZMod q) = z * ((B idx : Int) : ZMod q)) :
    ∀ j, j ≤ k → ∀ idx, idx < 2 ^ k →
      ((inttStages (q : Int) invR (2 ^ k) j A idx : Int) : ZMod q) =
        z * ((inttStages (q : Int) invR (2 ^ k) j B idx : Int) : ZMod q) := by
  intro j
  induction j with
  | zero =>
    intro _ idx hidx
    exact hAB idx hidx
  | succ j ih =>
    intro hjk idx hidx
    rw [inttStages_succ, inttStages_succ]
    have hmt := stage_m_t_id k j (by omega)
    exact gsStage_cast_scalar invR _ _ Nat.one_le_two_pow z _ _
      (fun ix hix => ih (by omega) ix (by omega)) idx (by omega)

theorem inttStages_ext {k : Nat} (q : Int) (invR : Nat → Int) (A B : Nat → Int)
    (hAB : ∀ idx, idx < 2 ^ k → A idx = B idx) :
    ∀ j, j ≤ k → ∀ idx, idx < 2 ^ k →
      inttStages q invR (2 ^ k) j A idx = inttStages q invR (2 ^ k) j B idx := by
  intro j
  induction j with
  | zero =>
    intro _ idx hidx
    exact hAB idx hidx
  | succ j ih =>
    intro hjk idx hidx
    rw [inttStages_succ, inttStages_succ]
    have hmt := stage_m_t_id k j (by omega)
    exact gsStage_ext q invR _ _ Nat.one_le_two_pow _ _
      (fun ix hix => ih (by omega) ix (by omega)) idx (by omega)

theorem intt_ntt_stages_cancel {k q : Nat} (R invR : Nat → Int)
    (hinv : ∀ j, j < 2 ^ k → ((invR j : Int) : ZMod q) * ((R j : Int) : ZMod q) = 1) :
    ∀ jn, jn ≤ k → ∀ a : Nat → Int, ∀ idx, idx < 2 ^ k →
      ((inttStages (q : Int) invR (2 ^ k) jn
          ((List.range' (k - jn) jn).foldl
            (fun b s => ctStage (q : Int) R (2 ^ s) (2 ^ k / 2 ^ (s + 1)) b) a) idx : Int) :
            ZMod q) =
        (2 : ZMod q) ^ jn * ((a idx : Int) : ZMod q) := by
  intro jn
  induction jn with
  | zero =>
    intro _ a idx hidx
    simp [inttStages]
  | succ jn ih =>
    intro hjk a idx hidx
    have hrange : List.range' (k - (jn + 1)) (jn + 1) =
        (k - jn - 1) :: List.range' (k - jn) jn := by
      rw [List.range'_succ]
      have h1 : k - (jn + 1) = k - jn - 1 := by omega
      have h2 : k - jn - 1 + 1 = k - jn := by omega
      rw [h1, h2]
    rw [hrange, List.foldl_cons, inttStages_succ]
    have hgm : 2 ^ k / 2 ^ (jn + 1) = 2 ^ (k - jn - 1) := by
      rw [Nat.pow_div (by omega) two_pos]
      congr 1
    have hct : 2 ^ k / 2 ^ (k - jn - 1 + 1) = 2 ^ jn := by
      rw [Nat.pow_div (by omega) two_pos]
      congr 1
      omega
    have hmt : 2 * (2 ^ k / 2 ^ (jn + 1)) * 2 ^ jn = 2 ^ k := stage_m_t_id k jn (by omega)
    have h2m : 2 * 2 ^ (k - jn - 1) * 2 ^ jn = 2 ^ k := by
      rw [← hgm]
      exact hmt
    have h2e : 2 * 2 ^ (k - jn - 1) ≤ 2 ^ k := by
      calc 2 * 2 ^ (k - jn - 1) = 2 * 2 ^ (k - jn - 1) * 1 := by ring
        _ ≤ 2 * 2 ^ (k - jn - 1) * 2 ^ jn := Nat.mul_le_mul_left _ Nat.one_le_two_pow
        _ = 2 ^ k := h2m
    have hscal := gsStage_cast_scalar (q := q) invR (2 ^ k / 2 ^ (jn + 1)) (2 ^ jn)
      Nat.one_le_two_pow ((2 : ZMod q) ^ jn)
      (inttStages (q : Int) invR (2 ^ k) jn
        ((List.range' (k - jn) jn).foldl
          (fun b s => ctStage (q : Int) R (2 ^ s) (2 ^ k / 2 ^ (s + 1)) b)
          (ctStage (q : Int) R (2 ^ (k - jn - 1)) (2 ^ k / 2 ^ (k - jn - 1 + 1)) a)))
      (ctStage (q : Int) R (2 ^ (k - jn - 1)) (2 ^ k / 2 ^ (k - jn - 1 + 1)) a)
      (fun ix hix => ih (by omega) _ ix (by omega)) idx (by omega)
    rw [hscal]
    have hcancel := gs_ct_cancel (q := q) R invR (2 ^ (k - jn - 1)) (2 ^ jn)
      Nat.one_le_two_pow
      (fun i hi => hinv (2 ^ (k - jn - 1) + i) (by omega))
      a idx (by omega)
    rw [hgm, hct, hcancel, pow_succ]
    ring

theorem inv_roots_mul {k q : Nat} {g : Int} (hq : q.Prime)
    (hg1 : g ^ (2 * 2 ^ k) ≡ 1 [ZMOD (q : Int)]) (j : Nat) :
    ((rootsOfUnityBitReverse (2 ^ k) (modularInverse g (q : Int)) (q : Int) j : Int) : ZMod q) *
      ((rootsOfUnityBitReverse (2 ^ k) g (q : Int) j : Int) : ZMod q) = 1 := by
  rw [roots_table_cast, roots_table_cast, ← mul_pow,
    modularInverse_mul hq (root_gcd_one hq hg1), one_pow]

theorem nInv_coprime {k q : Nat} (hq : q.Prime) (hqmod : q % (2 * 2 ^ k) = 1) :
    Int.gcd ((2 ^ k : Nat) : Int) (q : Int) = 1 := by
  have hq2 : q % 2 = 1 := by
    have hdvd : (2 : Nat) ∣ 2 * 2 ^ k := Dvd.intro _ rfl
    rw [← Nat.mod_mod_of_dvd q hdvd, hqmod]
  have h2q : Nat.Coprime 2 q := by
    rw [Nat.coprime_two_left, Nat.odd_iff]
    exact hq2
  have hpow : Nat.Coprime (2 ^ k) q := Nat.Coprime.pow_left k h2q
  rw [Int.gcd_natCast_natCast]
  exact hpow

theorem INTT_NTT_cast {k q : Nat} {g : Int} (hq : q.Prime) (hqmod : q % (2 * 2 ^ k) = 1)
    (hg1 : g ^ (2 * 2 ^ k) ≡ 1 [ZMOD (q : Int)]) (a : Nat → Int) :
    ∀ idx, idx < 2 ^ k →
      (((NewMultiplier (2 ^ k) (q : Int) g).INTT
          ((NewMultiplier (2 ^ k) (q : Int) g).NTT a) idx : Int) : ZMod q) =
        ((a idx : Int) : ZMod q) := by
  intro idx hidx
  rw [NTT_eq_nttPartial, INTT_eq_inttStages]
  rw [if_pos hidx]
  push_cast
  have hfold : nttPartial (q : Int) (rootsOfUnityBitReverse (2 ^ k) g (q : Int)) (2 ^ k) k a =
      (List.range' (k - k) k).foldl
        (fun b s => ctStage (q : Int) (rootsOfUnityBitReverse (2 ^ k) g (q : Int))
          (2 ^ s) (2 ^ k / 2 ^ (s + 1)) b) a := by
    unfold nttPartial
    rw [List.range_eq_range', Nat.sub_self]
  rw [hfold]
  rw [intt_ntt_stages_cancel _ _ (fun j _ => inv_roots_mul hq hg1 j) k le_rfl a idx hidx]
  have hinv := modularInverse_mul (q := q) hq (nInv_coprime hq hqmod)
  push_cast at hinv
  linear_combination ((a idx : Int) : ZMod q) * hinv

theorem INTT_ext {k : Nat} (q g : Int) (A B : Nat → Int)
    (hAB : ∀ idx, idx < 2 ^ k → A idx = B idx) :
    ∀ idx, idx < 2 ^ k →
      (NewMultiplier (2 ^ k) q g).INTT A idx = (NewMultiplier (2 ^ k) q g).INTT B idx := by
  intro idx hidx
  rw [INTT_eq_inttStages, INTT_eq_inttStages, if_pos hidx, if_pos hidx,
    inttStages_ext q _ A B hAB k le_rfl idx hidx]

theorem INTT_cast_congr {k q : Nat} {g : Int} (A B : Nat → Int)
    (hAB : ∀ idx, idx < 2 ^ k → ((A idx : Int) : ZMod q) = ((B idx : Int) : ZMod q)) :
    ∀ idx, idx < 2 ^ k →
      (((NewMultiplier (2 ^ k) (q : Int) g).INTT A idx : Int) : ZMod q) =
        (((NewMultiplier (2 ^ k) (q : Int) g).INTT B idx : Int) : ZMod q) := by
  intro idx hidx
  rw [INTT_eq_inttStages, INTT_eq_inttStages, if_pos hidx, if_pos hidx]
  push_cast
  have h := inttStages_cast_scalar
    (rootsOfUnityBitReverse (2 ^ k) (modularInverse g (q : Int)) (q : Int)) 1 A B
    (fun ix hx => by rw [hAB ix hx]; exact (one_mul _).symm) k le_rfl idx hidx
  rw [h]
  ring

theorem eq_of_modEq_of_bounds {q v w : Int} (h : v ≡ w [ZMOD q])
    (hv0 : 0 ≤ v) (hvq : v < q) (hw0 : 0 ≤ w) (hwq : w < q) : v = w := by
  have hv' : v % q = v := Int.emod_eq_of_lt hv0 hvq
  have hw' : w % q = w := Int.emod_eq_of_lt hw0 hwq
  unfold Int.ModEq at h
  omega

theorem getD_map_range (f : Nat → Int) (n i : Nat) (h : i < n) :
    ((List.range n).map f).getD i 0 = f i := by
  rw [List.getD_eq_getElem?_getD]
  simp [List.getElem?_map, List.getElem?_range h]

theorem INTTList_getD (mul : Multiplier) (a : List Int) (i : Nat) (h : i < mul.N) :
    (mul.INTTList a).getD i 0 = mul.INTT (toFun a) i := by
  unfold Multiplier.INTTList
  exact getD_map_range _ _ i h

theorem NTTList_getD (mul : Multiplier) (a : List Int) (i : Nat) (h : i < mul.N) :
    (mul.NTTList a).getD i 0 = mul.NTT (toFun a) i := by
  unfold Multiplier.NTTList
  exact getD_map_range _ _ i h

theorem MulList_getD (mul : Multiplier) (x y : List Int) (i : Nat) (h : i < mul.N) :
    (mul.Mul x y).getD i 0 = mul.MulFn (toFun x) (toFun y) i := by
  unfold Multiplier.Mul
  exact getD_map_range _ _ i h

/-- Claim C3: for every (N, q) with N a power of two, q prime and
q = 1 mod 2N, and every polynomial a of length N, INTT(NTT(a)) agrees with a
coefficient-wise modulo q, and restores a exactly when the coefficients
already lie in [0, q). -/
theorem C3_intt_ntt_roundtrip (k q : Nat) (g : Int) (a : List Int) (hq : q.Prime)
    (hqmod : q % (2 * 2 ^ k) = 1)
    (hg1 : g ^ (2 * 2 ^ k) ≡ 1 [ZMOD (q : Int)])
    (ha : a.length = 2 ^ k) :
    (∀ i, i < 2 ^ k →
      ((NewMultiplier (2 ^ k) (q : Int) g).INTTList
        ((NewMultiplier (2 ^ k) (q : Int) g).NTTList a)).getD i 0 ≡
          a.getD i 0 [ZMOD (q : Int)]) ∧
    ((∀ i, i < 2 ^ k → 0 ≤ a.getD i 0 ∧ a.getD i 0 < (q : Int)) →
      (NewMultiplier (2 ^ k) (q : Int) g).INTTList
        ((NewMultiplier (2 ^ k) (q : Int) g).NTTList a) = a) := by
  have hqpos : (0 : Int) < (q : Int) := by
    have := hq.two_le
    exact_mod_cast by omega
  have hkey : ∀ i, i < 2 ^ k →
      ((NewMultiplier (2 ^ k) (q : Int) g).INTTList
        ((NewMultiplier (2 ^ k) (q : Int) g).NTTList a)).getD i 0 =
      (NewMultiplier (2 ^ k) (q : Int) g).INTT
        ((NewMultiplier (2 ^ k) (q : Int) g).NTT (toFun a)) i := by
    intro i hi
    rw [INTTList_getD _ _ i hi]
    exact INTT_ext (q : Int) g _ _
      (fun j hj => NTTList_getD (NewMultiplier (2 ^ k) (q : Int) g) a j hj) i hi
  have hcong : ∀ i, i < 2 ^ k →
      ((NewMultiplier (2 ^ k) (q : Int) g).INTTList
        ((NewMultiplier (2 ^ k) (q : Int) g).NTTList a)).getD i 0 ≡
        a.getD i 0 [ZMOD (q : Int)] := by
    intro i hi
    rw [hkey i hi, ← ZMod.intCast_eq_intCast_iff]
    exact INTT_NTT_cast hq hqmod hg1 (toFun a) i hi
  refine ⟨hcong, fun hbounds => ?_⟩
  have hlen : ((NewMultiplier (2 ^ k) (q : Int) g).INTTList
      ((NewMultiplier (2 ^ k) (q : Int) g).NTTList a)).length = a.length := by
    unfold Multiplier.INTTList NewMultiplier
    simp [ha]
  apply List.ext_getElem hlen
  intro i h1 h2
  have hi : i < 2 ^ k := by
    rw [← ha]
    exact h2
  have hrange : 0 ≤ ((NewMultiplier (2 ^ k) (q : Int) g).INTTList
      ((NewMultiplier (2 ^ k) (q : Int) g).NTTList a)).getD i 0 ∧
      ((NewMultiplier (2 ^ k) (q : Int) g).INTTList
        ((NewMultiplier (2 ^ k) (q : Int) g).NTTList a)).getD i 0 < (q : Int) := by
    rw [hkey i hi, INTT_eq_inttStages, if_pos hi]
    exact ⟨Int.emod_nonneg _ (by omega), Int.emod_lt_of_pos _ hqpos⟩
  have heq := eq_of_modEq_of_bounds (hcong i hi) hrange.1 hrange.2
    (hbounds i hi).1 (hbounds i hi).2
  rw [← List.getD_eq_getElem _ 0 h1, ← List.getD_eq_getElem _ 0 h2]
  exact heq

theorem C3_intt_ntt_roundtrip_witness :
    Nat.Prime 17 ∧
      (∀ i, i < 2 ^ 2 →
        ((NewMultiplier (2 ^ 2) ((17 : Nat) : Int) 2).INTTList
          ((NewMultiplier (2 ^ 2) ((17 : Nat) : Int) 2).NTTList [5, 0, 16, 3])).getD i 0 ≡
            ([5, 0, 16, 3] : List Int).getD i 0 [ZMOD ((17 : Nat) : Int)]) ∧
      (NewMultiplier (2 ^ 2) ((17 : Nat) : Int) 2).INTTList
        ((NewMultiplier (2 ^ 2) ((17 : Nat) : Int) 2).NTTList [5, 0, 16, 3]) = [5, 0, 16, 3] :=
  ⟨by norm_num,
   (C3_intt_ntt_roundtrip 2 17 2 [5, 0, 16, 3] (by norm_num) (by decide) (by decide)
     (by decide)).1,
   (C3_intt_ntt_roundtrip 2 17 2 [5, 0, 16, 3] (by norm_num) (by decide) (by decide)
     (by decide)).2 (by decide)⟩

theorem NewMultiplier_Mod (n : Nat) (q g : Int) : (NewMultiplier n q g).Mod = q := rfl

theorem MulFn_def (mul : Multiplier) (x y : Nat → Int) (i : Nat) :
    mul.MulFn x y i =
      mul.INTT (mul.Hadamard (mul.NTT x) (mul.NTT y)) i % mul.Mod := rfl

theorem Hadamard_def (mul : Multiplier) (a b : Nat → Int) (i : Nat) :
    mul.Hadamard a b i = a i * b i % mul.Mod := rfl

theorem NTT_eval {k q : Nat} {g : Int} (hq : q.Prime)
    (hg1 : g ^ (2 * 2 ^ k) ≡ 1 [ZMOD (q : Int)]) (hg2 : ¬ g ^ 2 ^ k ≡ 1 [ZMOD (q : Int)])
    (a : Nat → Int) :
    ∀ c, c < 2 ^ k →
      (((NewMultiplier (2 ^ k) (q : Int) g).NTT a c : Int) : ZMod q) =
        ∑ u ∈ Finset.range (2 ^ k),
          ((a u : Int) : ZMod q) * ((g : ZMod q) ^ (2 * bitReverse k c + 1)) ^ u := by
  intro c hc
  rw [NTT_eq_nttPartial]
  have h := nttPartial_eval hq hg1 hg2 a k le_rfl c hc 0 (by norm_num [Nat.sub_self])
  have harg : c * 2 ^ (k - k) + 0 = c := by norm_num [Nat.sub_self]
  rw [harg] at h
  rw [h]
  refine Finset.sum_congr rfl fun u _ => ?_
  have h1 : 0 + u * 2 ^ (k - k) = u := by norm_num [Nat.sub_self]
  have h2 : 2 ^ (k - k) * (2 * bitReverse k c + 1) * u = (2 * bitReverse k c + 1) * u := by
    norm_num [Nat.sub_self]
  rw [h1, h2, pow_mul]

theorem negacyclicRef_eval {q : Nat} (n : Nat) (x y : Nat → Int) (w : ZMod q)
    (hw : w ^ n = -1) :
    ∑ idx ∈ Finset.range n, ((negacyclicRef n x y idx : Int) : ZMod q) * w ^ idx =
      (∑ i ∈ Finset.range n, ((x i : Int) : ZMod q) * w ^ i) *
        (∑ j ∈ Finset.range n, ((y j : Int) : ZMod q) * w ^ j) := by
  rw [Finset.sum_mul_sum]
  unfold negacyclicRef
  push_cast [apply_ite (fun z : Int => (z : ZMod q))]
  simp only [Finset.sum_mul, ite_mul, zero_mul, neg_mul]
  rw [Finset.sum_comm]
  refine Finset.sum_congr rfl fun i hi => ?_
  rw [Finset.sum_comm]
  refine Finset.sum_congr rfl fun j hj => ?_
  have hi' : i < n := Finset.mem_range.mp hi
  have hj' : j < n := Finset.mem_range.mp hj
  by_cases hij : i + j < n
  · have hsum : ∀ idx ∈ Finset.range n,
        (if i + j = idx then ((x i : Int) : ZMod q) * ((y j : Int) : ZMod q) * w ^ idx
         else if i + j = idx + n then -(((x i : Int) : ZMod q) * ((y j : Int) : ZMod q) * w ^ idx)
         else 0) =
        (if i + j = idx then ((x i : Int) : ZMod q) * ((y j : Int) : ZMod q) * w ^ idx
         else 0) := by
      intro idx hidx
      have hidx' : idx < n := Finset.mem_range.mp hidx
      by_cases h1 : i + j = idx
      · rw [if_pos h1, if_pos h1]
      · rw [if_neg h1, if_neg h1, if_neg (by omega)]
    rw [Finset.sum_congr rfl hsum, Finset.sum_ite_eq (Finset.range n) (i + j),
      if_pos (Finset.mem_range.mpr hij)]
    have hpow : w ^ (i + j) = w ^ i * w ^ j := pow_add w i j
    rw [hpow]
    ring
  · have hsum : ∀ idx ∈ Finset.range n,
        (if i + j = idx then ((x i : Int) : ZMod q) * ((y j : Int) : ZMod q) * w ^ idx
         else if i + j = idx + n then -(((x i : Int) : ZMod q) * ((y j : Int) : ZMod q) * w ^ idx)
         else 0) =
        (if i + j - n = idx then
          -(((x i : Int) : ZMod q) * ((y j : Int) : ZMod q) * w ^ idx) else 0) := by
      intro idx hidx
      have hidx' : idx < n := Finset.mem_range.mp hidx
      by_cases h1 : i + j - n = idx
      · rw [if_neg (by omega), if_pos (by omega), if_pos h1]
      · rw [if_neg (by omega), if_neg (by omega), if_neg h1]
    rw [Finset.sum_congr rfl hsum, Finset.sum_ite_eq (Finset.range n) (i + j - n),
      if_pos (Finset.mem_range.mpr (by omega))]
    have hpow : w ^ i * w ^ j = w ^ (i + j - n) * w ^ n := by
      rw [← pow_add, ← pow_add]
      congr 1
      omega
    have hre : ((x i : Int) : ZMod q) * w ^ i * (((y j : Int) : ZMod q) * w ^ j) =
        ((x i : Int) : ZMod q) * ((y j : Int) : ZMod q) * (w ^ i * w ^ j) := by ring
    rw [hre, hpow, hw]
    ring

/-- Core correctness of the prime-field multiplier: each coefficient of
Multiplier.Mul agrees modulo q with the reference negacyclic convolution. -/
theorem mul_conv_modEq (k q : Nat) (g : Int) (x y : List Int)
    (hq : q.Prime) (hqmod : q % (2 * 2 ^ k) = 1)
    (hg1 : g ^ (2 * 2 ^ k) ≡ 1 [ZMOD (q : Int)]) (hg2 : ¬ g ^ 2 ^ k ≡ 1 [ZMOD (q : Int)])
    (hx : x.length = 2 ^ k) (hy : y.length = 2 ^ k) :
    ∀ i, i < 2 ^ k →
      ((NewMultiplier (2 ^ k) (q : Int) g).Mul x y).getD i 0 ≡
        negacyclicRef (2 ^ k) (toFun x) (toFun y) i [ZMOD (q : Int)] := by
  intro i hi
  rw [MulList_getD _ x y i hi, MulFn_def, NewMultiplier_Mod,
    ← ZMod.intCast_eq_intCast_iff, intCast_emod]
  have hneg : (g : ZMod q) ^ 2 ^ k = -1 := root_pow_n_neg_one hq hg1 hg2
  have hhad : ∀ c, c < 2 ^ k →
      (((NewMultiplier (2 ^ k) (q : Int) g).Hadamard
          ((NewMultiplier (2 ^ k) (q : Int) g).NTT (toFun x))
          ((NewMultiplier (2 ^ k) (q : Int) g).NTT (toFun y)) c : Int) : ZMod q) =
      (((NewMultiplier (2 ^ k) (q : Int) g).NTT
          (fun idx => negacyclicRef (2 ^ k) (toFun x) (toFun y) idx) c : Int) : ZMod q) := by
    intro c hc
    rw [Hadamard_def, NewMultiplier_Mod, intCast_emod]
    push_cast
    rw [NTT_eval hq hg1 hg2 (toFun x) c hc, NTT_eval hq hg1 hg2 (toFun y) c hc,
      NTT_eval hq hg1 hg2 (fun idx => negacyclicRef (2 ^ k) (toFun x) (toFun y) idx) c hc]
    have hw : ((g : ZMod q) ^ (2 * bitReverse k c + 1)) ^ (2 ^ k) = -1 := by
      rw [← pow_mul, mul_comm (2 * bitReverse k c + 1) (2 ^ k), pow_mul, hneg]
      exact Odd.neg_one_pow ⟨bitReverse k c, by ring⟩
    exact (negacyclicRef_eval (2 ^ k) (toFun x) (toFun y) _ hw).symm
  rw [INTT_cast_congr _ _ hhad i hi]
  exact INTT_NTT_cast hq hqmod hg1 _ i hi

/-- Claim C1: for every multiplier built from N = 2^k, a prime q with
q = 1 mod 2N and a sampled primitive 2N-th root g, and every pair of length-N
polynomials, each coefficient of Multiplier.Mul agrees modulo q with the
reference negacyclic convolution out[i+j] += x[i]*y[j] for i+j < N and
out[i+j-N] -= x[i]*y[j] otherwise. -/
theorem C1_mul_matches_negacyclic_convolution (k q : Nat) (g : Int) (x y : List Int)
    (hq : q.Prime) (hqmod : q % (2 * 2 ^ k) = 1)
    (hg1 : g ^ (2 * 2 ^ k) ≡ 1 [ZMOD (q : Int)]) (hg2 : ¬ g ^ 2 ^ k ≡ 1 [ZMOD (q : Int)])
    (hx : x.length = 2 ^ k) (hy : y.length = 2 ^ k) :
    ∀ i, i < 2 ^ k →
      ((NewMultiplier (2 ^ k) (q : Int) g).Mul x y).getD i 0 ≡
        negacyclicRef (2 ^ k) (toFun x) (toFun y) i [ZMOD (q : Int)] :=
  mul_conv_modEq k q g x y hq hqmod hg1 hg2 hx hy

theorem C1_mul_matches_negacyclic_convolution_witness :
    Nat.Prime 5 ∧
      ∀ i, i < 2 ^ 1 →
        ((NewMultiplier (2 ^ 1) ((5 : Nat) : Int) 2).Mul [3, 1] [2, 4]).getD i 0 ≡
          negacyclicRef (2 ^ 1) (toFun [3, 1]) (toFun [2, 4]) i [ZMOD ((5 : Nat) : Int)] :=
  ⟨by norm_num,
   C1_mul_matches_negacyclic_convolution 1 5 2 [3, 1] [2, 4] (by norm_num) (by decide)
     (by decide) (by decide) (by decide) (by decide)⟩

theorem NewCRTMultiplier_mulP (n : Nat) (p q gP gQ : Int) :
    (NewCRTMultiplier n p q gP gQ).multiplierP = NewMultiplier n p gP := rfl

theorem NewCRTMultiplier_mulQ (n : Nat) (p q gP gQ : Int) :
    (NewCRTMultiplier n p q gP gQ).multiplierQ = NewMultiplier n q gQ := rfl

theorem NewCRTMultiplier_pInvQ (n : Nat) (p q gP gQ : Int) :
    (NewCRTMultiplier n p q gP gQ).pInvQ = modularInverse p q := rfl

theorem CRTMul_getD (m : CRTMultiplier) (x y : List Int) (i : Nat) (h : i < x.length) :
    (m.Mul x y).getD i 0 =
      ((m.multiplierQ.Mul x y).getD i 0 - (m.multiplierP.Mul x y).getD i 0) * m.pInvQ *
        m.multiplierP.Mod + (m.multiplierP.Mul x y).getD i 0 := by
  unfold CRTMultiplier.Mul
  exact getD_map_range _ _ i h

/-- Claim C2: the Garner recombination of the two prime-field products agrees
with each inner product modulo its prime and with the reference negacyclic
convolution modulo p*q. -/
theorem C2_crt_mul_congruences (k p q : Nat) (gP gQ : Int) (x y : List Int)
    (hp : p.Prime) (hq : q.Prime) (hne : p ≠ q)
    (hpmod : p % (2 * 2 ^ k) = 1) (hqmod : q % (2 * 2 ^ k) = 1)
    (hgp1 : gP ^ (2 * 2 ^ k) ≡ 1 [ZMOD (p : Int)]) (hgp2 : ¬ gP ^ 2 ^ k ≡ 1 [ZMOD (p : Int)])
    (hgq1 : gQ ^ (2 * 2 ^ k) ≡ 1 [ZMOD (q : Int)]) (hgq2 : ¬ gQ ^ 2 ^ k ≡ 1 [ZMOD (q : Int)])
    (hx : x.length = 2 ^ k) (hy : y.length = 2 ^ k) :
    ∀ i, i < 2 ^ k →
      ((NewCRTMultiplier (2 ^ k) (p : Int) (q : Int) gP gQ).Mul x y).getD i 0 ≡
          ((NewMultiplier (2 ^ k) (p : Int) gP).Mul x y).getD i 0 [ZMOD (p : Int)] ∧
      ((NewCRTMultiplier (2 ^ k) (p : Int) (q : Int) gP gQ).Mul x y).getD i 0 ≡
          ((NewMultiplier (2 ^ k) (q : Int) gQ).Mul x y).getD i 0 [ZMOD (q : Int)] ∧
      ((NewCRTMultiplier (2 ^ k) (p : Int) (q : Int) gP gQ).Mul x y).getD i 0 ≡
          negacyclicRef (2 ^ k) (toFun x) (toFun y) i [ZMOD ((p : Int) * (q : Int))] := by
  intro i hi
  have hilen : i < x.length := by
    rw [hx]
    exact hi
  have hgcd : Int.gcd (p : Int) (q : Int) = 1 := by
    rw [Int.gcd_natCast_natCast]
    exact (Nat.coprime_primes hp hq).mpr hne
  have hget := CRTMul_getD (NewCRTMultiplier (2 ^ k) (p : Int) (q : Int) gP gQ) x y i hilen
  rw [NewCRTMultiplier_mulP, NewCRTMultiplier_mulQ, NewCRTMultiplier_pInvQ,
    NewMultiplier_Mod] at hget
  have hA : ((NewCRTMultiplier (2 ^ k) (p : Int) (q : Int) gP gQ).Mul x y).getD i 0 ≡
      ((NewMultiplier (2 ^ k) (p : Int) gP).Mul x y).getD i 0 [ZMOD (p : Int)] := by
    rw [← ZMod.intCast_eq_intCast_iff, hget]
    push_cast
    simp [ZMod.natCast_self]
  have hB : ((NewCRTMultiplier (2 ^ k) (p : Int) (q : Int) gP gQ).Mul x y).getD i 0 ≡
      ((NewMultiplier (2 ^ k) (q : Int) gQ).Mul x y).getD i 0 [ZMOD (q : Int)] := by
    rw [← ZMod.intCast_eq_intCast_iff, hget]
    have hinv := modularInverse_mul (q := q) (a := (p : Int)) hq hgcd
    push_cast
    push_cast at hinv
    linear_combination ((((NewMultiplier (2 ^ k) (q : Int) gQ).Mul x y).getD i 0 : Int) -
      (((NewMultiplier (2 ^ k) (p : Int) gP).Mul x y).getD i 0 : Int) : ZMod q) * hinv
  refine ⟨hA, hB, ?_⟩
  have hAc := mul_conv_modEq k p gP x y hp hpmod hgp1 hgp2 hx hy i hi
  have hBc := mul_conv_modEq k q gQ x y hq hqmod hgq1 hgq2 hx hy i hi
  exact (Int.modEq_and_modEq_iff_modEq_mul hgcd).mp ⟨hA.trans hAc, hB.trans hBc⟩

theorem C2_crt_mul_congruences_witness :
    Nat.Prime 5 ∧ Nat.Prime 13 ∧
      ∀ i, i < 2 ^ 1 →
        ((NewCRTMultiplier (2 ^ 1) ((5 : Nat) : Int) ((13 : Nat) : Int) 2 5).Mul
            [1, 0] [7, 0]).getD i 0 ≡
            ((NewMultiplier (2 ^ 1) ((5 : Nat) : Int) 2).Mul [1, 0] [7, 0]).getD i 0
              [ZMOD ((5 : Nat) : Int)] ∧
        ((NewCRTMultiplier (2 ^ 1) ((5 : Nat) : Int) ((13 : Nat) : Int) 2 5).Mul
            [1, 0] [7, 0]).getD i 0 ≡
            ((NewMultiplier (2 ^ 1) ((13 : Nat) : Int) 5).Mul [1, 0] [7, 0]).getD i 0
              [ZMOD ((13 : Nat) : Int)] ∧
        ((NewCRTMultiplier (2 ^ 1) ((5 : Nat) : Int) ((13 : Nat) : Int) 2 5).Mul
            [1, 0] [7, 0]).getD i 0 ≡
            negacyclicRef (2 ^ 1) (toFun [1, 0]) (toFun [7, 0]) i
              [ZMOD (((5 : Nat) : Int) * ((13 : Nat) : Int))] :=
  ⟨by norm_num, by norm_num,
   C2_crt_mul_congruences 1 5 13 2 5 [1, 0] [7, 0] (by norm_num) (by norm_num)
     (by norm_num) (by decide) (by decide) (by decide) (by decide) (by decide) (by decide)
     (by decide) (by decide)⟩

/-!
Symmetric reduction: range, congruence and uniqueness of the canonical
representative produced by Polynomial.Mod.
-/

theorem symmetricModulusCoeff_range (q v : Int) (hq : 0 < q) :
    -q < 2 * symmetricModulusCoeff q v ∧ 2 * symmetricModulusCoeff q v ≤ q := by
  unfold symmetricModulusCoeff
  dsimp only
  have h0 : 0 ≤ v % q := Int.emod_nonneg v (by omega)
  have h1 : v % q < q := Int.emod_lt_of_pos v hq
  split_ifs <;> omega

theorem symmetricModulusCoeff_modEq (q v : Int) :
    symmetricModulusCoeff q v ≡ v [ZMOD q] := by
  unfold symmetricModulusCoeff
  dsimp only
  have hbase : v % q ≡ v [ZMOD q] := Int.emod_emod_of_dvd v dvd_rfl
  split_ifs
  · calc v % q - q ≡ v % q [ZMOD q] := (Int.ModEq.symm (Int.modEq_iff_dvd.mpr ⟨-1, by ring⟩))
      _ ≡ v [ZMOD q] := hbase
  · calc v % q + q ≡ v % q [ZMOD q] := (Int.ModEq.symm (Int.modEq_iff_dvd.mpr ⟨1, by ring⟩))
      _ ≡ v [ZMOD q] := hbase
  · exact hbase

theorem symRange_unique {q a b : Int} (hq : 0 < q) (h : a ≡ b [ZMOD q])
    (ha1 : -q < 2 * a) (ha2 : 2 * a ≤ q) (hb1 : -q < 2 * b) (hb2 : 2 * b ≤ q) : a = b := by
  have hdvd : q ∣ b - a := h.dvd
  have habs : |b - a| < q := by
    rw [abs_lt]
    omega
  have hz : b - a = 0 := Int.eq_zero_of_abs_lt_dvd hdvd habs
  omega

theorem polyMod_getD (q : Int) (l : List Int) (i : Nat) (h : i < l.length) :
    (polyMod q l).getD i 0 = symmetricModulusCoeff q (l.getD i 0) := by
  unfold polyMod
  rw [List.getD_eq_getElem _ _ (by simpa using h), List.getElem_map,
    List.getD_eq_getElem _ _ h]

/-- Counterexample to claim C4: with N = 2, q = 5 and the primitive fourth
root 2, Multiplier.Mul([3,0], [1,0]) has first coefficient 3, which lies
outside the symmetric interval (-5/2, 5/2]: the final reduction in Mul is the
non-negative Euclidean residue, not the symmetric one. -/
theorem C4_counterexample :
    ((NewMultiplier (2 ^ 1) ((5 : Nat) : Int) 2).Mul [3, 0] [1, 0]).getD 0 0 = 3 ∧
      ¬(2 * ((NewMultiplier (2 ^ 1) ((5 : Nat) : Int) 2).Mul [3, 0] [1, 0]).getD 0 0 ≤
        ((5 : Nat) : Int)) := by
  decide

/-- Amended claim C4: every coefficient returned by Multiplier.Mul is the
non-negative residue in [0, q); the symmetric representative is only produced
by the separate Polynomial.Mod step that callers apply. -/
theorem C4_mul_nonneg_residues (k q : Nat) (g : Int) (x y : List Int) (hq : 0 < q) :
    ∀ i, i < 2 ^ k →
      0 ≤ ((NewMultiplier (2 ^ k) (q : Int) g).Mul x y).getD i 0 ∧
        ((NewMultiplier (2 ^ k) (q : Int) g).Mul x y).getD i 0 < (q : Int) := by
  intro i hi
  rw [MulList_getD _ x y i hi, MulFn_def, NewMultiplier_Mod]
  constructor
  · exact Int.emod_nonneg _ (Int.natCast_ne_zero.mpr (by omega))
  · exact Int.emod_lt_of_pos _ (by exact_mod_cast hq)

theorem C4_mul_nonneg_residues_witness :
    0 < 5 ∧
      ∀ i, i < 2 ^ 1 →
        0 ≤ ((NewMultiplier (2 ^ 1) ((5 : Nat) : Int) 2).Mul [3, 0] [1, 0]).getD i 0 ∧
          ((NewMultiplier (2 ^ 1) ((5 : Nat) : Int) 2).Mul [3, 0] [1, 0]).getD i 0 <
            ((5 : Nat) : Int) :=
  ⟨by norm_num, C4_mul_nonneg_residues 1 5 2 [3, 0] [1, 0] (by norm_num)⟩

/-- Counterexample to claim C5: with N = 2, p = 5, q = 13, the Garner output
of CRTMultiplier.Mul([1,0], [7,0]) has first coefficient 202, far outside
(-65/2, 65/2]: the source never reduces the recombined value. -/
theorem C5_counterexample :
    ((NewCRTMultiplier (2 ^ 1) ((5 : Nat) : Int) ((13 : Nat) : Int) 2 5).Mul
        [1, 0] [7, 0]).getD 0 0 = 202 ∧
      ¬(2 * ((NewCRTMultiplier (2 ^ 1) ((5 : Nat) : Int) ((13 : Nat) : Int) 2 5).Mul
          [1, 0] [7, 0]).getD 0 0 ≤ ((5 : Nat) : Int) * ((13 : Nat) : Int)) := by
  decide

/-- Amended claim C5: CRTMultiplier.Mul returns the unreduced Garner
combination (congruent to the convolution modulo p*q); the symmetric interval
(-pq/2, pq/2] is only reached after the caller applies Polynomial.Mod(p*q),
which this theorem describes. -/
theorem C5_polyMod_symmetric_range (q : Int) (l : List Int) (hq : 0 < q) :
    ∀ i, i < l.length →
      -q < 2 * (polyMod q l).getD i 0 ∧ 2 * (polyMod q l).getD i 0 ≤ q := by
  intro i hi
  rw [polyMod_getD q l i hi]
  exact symmetricModulusCoeff_range q _ hq

theorem C5_polyMod_symmetric_range_witness :
    (0 : Int) < 65 ∧
      ∀ i, i < ([202, 0] : List Int).length →
        -(65 : Int) < 2 * (polyMod 65 [202, 0]).getD i 0 ∧
          2 * (polyMod 65 [202, 0]).getD i 0 ≤ 65 :=
  ⟨by norm_num, C5_polyMod_symmetric_range 65 [202, 0] (by norm_num)⟩

/-!
Integer multiplier: the derived prime exceeds twice the coefficient bound of
the negacyclic product, so the symmetric reduction returns the product
exactly.
-/

theorem normInfinite_spec (l : List Int) :
    0 ≤ normInfinite l ∧ ∀ v ∈ l, |v| ≤ normInfinite l := by
  unfold normInfinite
  suffices h : ∀ acc : Int, 0 ≤ acc →
      acc ≤ l.foldl (fun norm val => if |norm| < |val| then |val| else norm) acc ∧
      0 ≤ l.foldl (fun norm val => if |norm| < |val| then |val| else norm) acc ∧
      ∀ v ∈ l, |v| ≤ l.foldl (fun norm val => if |norm| < |val| then |val| else norm) acc by
    obtain ⟨_, h0, hmem⟩ := h 0 le_rfl
    exact ⟨h0, hmem⟩
  induction l with
  | nil =>
    intro acc hacc
    exact ⟨le_rfl, hacc, by simp⟩
  | cons v l ih =>
    intro acc hacc
    have hstep0 : 0 ≤ if |acc| < |v| then |v| else acc := by
      split_ifs
      · positivity
      · exact hacc
    have hstepacc : acc ≤ if |acc| < |v| then |v| else acc := by
      split_ifs with h
      · calc acc ≤ |acc| := le_abs_self acc
          _ ≤ |v| := le_of_lt h
      · exact le_rfl
    have hstepv : |v| ≤ if |acc| < |v| then |v| else acc := by
      split_ifs with h
      · exact le_rfl
      · calc |v| ≤ |acc| := le_of_not_lt h
          _ = acc := abs_of_nonneg hacc
    obtain ⟨h1, h2, h3⟩ := ih _ hstep0
    refine ⟨le_trans hstepacc h1, h2, ?_⟩
    intro w hw
    rcases List.mem_cons.mp hw with rfl | hwl
    · exact le_trans hstepv h1
    · exact h3 w hwl

theorem negacyclicRef_row (n : Nat) (x y : Nat → Int) (idx i : Nat)
    (hidx : idx < n) (hi : i < n) :
    (∑ j ∈ Finset.range n,
      if i + j = idx then x i * y j else if i + j = idx + n then -(x i * y j) else 0) =
      if i ≤ idx then x i * y (idx - i) else -(x i * y (idx + n - i)) := by
  by_cases hle : i ≤ idx
  · rw [if_pos hle]
    have hsum : ∀ j ∈ Finset.range n,
        (if i + j = idx then x i * y j else if i + j = idx + n then -(x i * y j) else 0) =
        (if idx - i = j then x i * y j else 0) := by
      intro j hj
      have hj' : j < n := Finset.mem_range.mp hj
      by_cases h1 : idx - i = j
      · rw [if_pos (by omega), if_pos h1]
      · rw [if_neg (by omega), if_neg (by omega), if_neg h1]
    rw [Finset.sum_congr rfl hsum, Finset.sum_ite_eq (Finset.range n) (idx - i),
      if_pos (Finset.mem_range.mpr (by omega))]
  · rw [if_neg hle]
    have hsum : ∀ j ∈ Finset.range n,
        (if i + j = idx then x i * y j else if i + j = idx + n then -(x i * y j) else 0) =
        (if idx + n - i = j then -(x i * y j) else 0) := by
      intro j hj
      have hj' : j < n := Finset.mem_range.mp hj
      by_cases h1 : idx + n - i = j
      · rw [if_neg (by omega), if_pos (by omega), if_pos h1]
      · rw [if_neg (by omega), if_neg (by omega), if_neg h1]
    rw [Finset.sum_congr rfl hsum, Finset.sum_ite_eq (Finset.range n) (idx + n - i),
      if_pos (Finset.mem_range.mpr (by omega))]

theorem negacyclicRef_bound (n : Nat) (x y : Nat → Int) (idx : Nat) (A B : Int)
    (hidx : idx < n) (hA : ∀ j, j < n → |x j| ≤ A) (hB : ∀ j, j < n → |y j| ≤ B)
    (hA0 : 0 ≤ A) (hB0 : 0 ≤ B) :
    |negacyclicRef n x y idx| ≤ (n : Int) * A * B := by
  unfold negacyclicRef
  calc |∑ i ∈ Finset.range n, ∑ j ∈ Finset.range n,
        if i + j = idx then x i * y j else if i + j = idx + n then -(x i * y j) else 0| ≤
      ∑ i ∈ Finset.range n, |∑ j ∈ Finset.range n,
        if i + j = idx then x i * y j else if i + j = idx + n then -(x i * y j) else 0| :=
        Finset.abs_sum_le_sum_abs _ _
    _ ≤ ∑ _i ∈ Finset.range n, A * B := by
        refine Finset.sum_le_sum fun i hi => ?_
        have hi' : i < n := Finset.mem_range.mp hi
        rw [negacyclicRef_row n x y idx i hidx hi']
        have habs : ∀ j, j < n → |x i * y j| ≤ A * B := fun j hj => by
          rw [abs_mul]
          exact mul_le_mul (hA i hi') (hB j hj) (abs_nonneg _) hA0
        split_ifs with hle
        · exact habs (idx - i) (by omega)
        · rw [abs_neg]
          exact habs (idx + n - i) (by omega)
    _ = (n : Int) * A * B := by
        rw [Finset.sum_const, Finset.card_range]
        push_cast
        ring

theorem Mul_length (mul : Multiplier) (x y : List Int) : (mul.Mul x y).length = mul.N := by
  unfold Multiplier.Mul
  simp

/-- Claim C6: once the prime search of ZMultiplier.Mul lands on a true prime
q = 2N normX normY + 1 + 2Nj (every candidate has this shape) and the root
sampler returns a primitive 2N-th root, the returned polynomial is exactly
the integer negacyclic product, with no modular wrap-around. -/
theorem C6_zmultiplier_exact (k q : Nat) (g : Int) (x y : List Int) (j : Nat)
    (hq : q.Prime)
    (hqval : (q : Int) = zPrimeCandidate (2 ^ k) (normInfinite x) (normInfinite y) j)
    (hg1 : g ^ (2 * 2 ^ k) ≡ 1 [ZMOD (q : Int)]) (hg2 : ¬ g ^ 2 ^ k ≡ 1 [ZMOD (q : Int)])
    (hx : x.length = 2 ^ k) (hy : y.length = 2 ^ k) :
    ∀ i, i < 2 ^ k →
      (ZMultiplier.MulWith ⟨2 ^ k⟩ (q : Int) g x y).getD i 0 =
        negacyclicRef (2 ^ k) (toFun x) (toFun y) i := by
  intro i hi
  have hA := normInfinite_spec x
  have hB := normInfinite_spec y
  have hn1 : (1 : Int) ≤ ((2 ^ k : Nat) : Int) := by exact_mod_cast Nat.one_le_two_pow
  have hprod : 0 ≤ ((2 ^ k : Nat) : Int) * normInfinite x * normInfinite y := by
    have := hA.1
    have := hB.1
    positivity
  have hqbound : 2 * (((2 ^ k : Nat) : Int) * normInfinite x * normInfinite y) + 1 ≤ (q : Int) := by
    rw [hqval]
    unfold zPrimeCandidate
    have hj0 : (0 : Int) ≤ ((2 ^ k : Nat) : Int) * (j : Int) := by positivity
    nlinarith
  have hqmod : q % (2 * 2 ^ k) = 1 := by
    have hmod : (q : Int) % ((2 * 2 ^ k : Nat) : Int) = 1 := by
      rw [hqval]
      unfold zPrimeCandidate
      have hform : 2 * ((2 ^ k : Nat) : Int) * normInfinite x * normInfinite y + 1 +
          2 * ((2 ^ k : Nat) : Int) * (j : Int) =
          1 + (normInfinite x * normInfinite y + (j : Int)) * ((2 * 2 ^ k : Nat) : Int) := by
        push_cast
        ring
      rw [hform, Int.add_mul_emod_self]
      have h1k : (1 : Nat) ≤ 2 ^ k := Nat.one_le_two_pow
      have hlt : (1 : Int) < ((2 * 2 ^ k : Nat) : Int) :=
        by exact_mod_cast (by omega : (1 : Nat) < 2 * 2 ^ k)
      exact Int.emod_eq_of_lt (by omega) hlt
    have hcast : ((q % (2 * 2 ^ k) : Nat) : Int) = 1 := by
      rw [Int.natCast_mod]
      exact hmod
    exact_mod_cast hcast
  have hq0 : (0 : Int) < (q : Int) := by
    have := hq.two_le
    exact_mod_cast by omega
  have hconv : |negacyclicRef (2 ^ k) (toFun x) (toFun y) i| ≤
      ((2 ^ k : Nat) : Int) * normInfinite x * normInfinite y := by
    refine negacyclicRef_bound (2 ^ k) _ _ i (normInfinite x) (normInfinite y) hi
      (fun j hj => hA.2 _ ?_) (fun j hj => hB.2 _ ?_) hA.1 hB.1
    · unfold toFun
      rw [List.getD_eq_getElem _ _ (by omega)]
      exact List.getElem_mem _
    · unfold toFun
      rw [List.getD_eq_getElem _ _ (by omega)]
      exact List.getElem_mem _
  have hlenmul : i < ((NewMultiplier (2 ^ k) (q : Int) g).Mul x y).length := by
    rw [Mul_length]
    exact hi
  have hgetmul : (ZMultiplier.MulWith ⟨2 ^ k⟩ (q : Int) g x y).getD i 0 =
      symmetricModulusCoeff (q : Int) (((NewMultiplier (2 ^ k) (q : Int) g).Mul x y).getD i 0) :=
    polyMod_getD _ _ i hlenmul
  rw [hgetmul]
  have hcongr : symmetricModulusCoeff (q : Int)
      (((NewMultiplier (2 ^ k) (q : Int) g).Mul x y).getD i 0) ≡
        negacyclicRef (2 ^ k) (toFun x) (toFun y) i [ZMOD (q : Int)] :=
    (symmetricModulusCoeff_modEq _ _).trans (mul_conv_modEq k q g x y hq hqmod hg1 hg2 hx hy i hi)
  have hrange1 := symmetricModulusCoeff_range (q : Int)
    (((NewMultiplier (2 ^ k) (q : Int) g).Mul x y).getD i 0) hq0
  rw [abs_le] at hconv
  exact symRange_unique hq0 hcongr hrange1.1 hrange1.2 (by omega) (by omega)

theorem C6_zmultiplier_exact_witness :
    Nat.Prime 5 ∧
      ∀ i, i < 2 ^ 1 →
        (ZMultiplier.MulWith ⟨2 ^ 1⟩ ((5 : Nat) : Int) 2 [1, 0] [1, 0]).getD i 0 =
          negacyclicRef (2 ^ 1) (toFun [1, 0]) (toFun [1, 0]) i :=
  ⟨by norm_num,
   C6_zmultiplier_exact 1 5 2 [1, 0] [1, 0] 0 (by norm_num) (by decide) (by decide) (by decide)
     (by decide) (by decide)⟩

/-!
Karatsuba: list access helpers, quadrant decomposition of the full
convolution, and bilinearity.
-/

theorem getD_addSlices (u v : List Int) (hlen : u.length = v.length) (i : Nat) :
    (addSlices u v).getD i 0 = u.getD i 0 + v.getD i 0 := by
  unfold addSlices
  by_cases h : i < u.length
  · rw [List.getD_eq_getElem _ _ (by simp [List.length_zipWith]; omega),
      List.getElem_zipWith, List.getD_eq_getElem _ _ h, List.getD_eq_getElem _ _ (by omega)]
  · rw [List.getD_eq_default _ _ (by simp [List.length_zipWith]; omega),
      List.getD_eq_default _ _ (by omega), List.getD_eq_default _ _ (by omega)]
    norm_num

theorem getD_subSlices (u v : List Int) (hlen : u.length = v.length) (i : Nat) :
    (subSlices u v).getD i 0 = u.getD i 0 - v.getD i 0 := by
  unfold subSlices
  by_cases h : i < u.length
  · rw [List.getD_eq_getElem _ _ (by simp [List.length_zipWith]; omega),
      List.getElem_zipWith, List.getD_eq_getElem _ _ h, List.getD_eq_getElem _ _ (by omega)]
  · rw [List.getD_eq_default _ _ (by simp [List.length_zipWith]; omega),
      List.getD_eq_default _ _ (by omega), List.getD_eq_default _ _ (by omega)]
    norm_num

theorem getD_replicate_zero (n i : Nat) : (List.replicate n (0 : Int)).getD i 0 = 0 := by
  by_cases h : i < n
  · rw [List.getD_eq_getElem _ _ (by simpa using h), List.getElem_replicate]
  · rw [List.getD_eq_default _ _ (by simpa using h)]

theorem getD_take (l : List Int) (n i : Nat) (h : i < n) :
    (l.take n).getD i 0 = l.getD i 0 := by
  by_cases hl : i < l.length
  · rw [List.getD_eq_getElem _ _ (by simp; omega), List.getElem_take,
      List.getD_eq_getElem _ _ hl]
  · rw [List.getD_eq_default _ _ (by simp; omega), List.getD_eq_default _ _ (by omega)]

theorem getD_drop (l : List Int) (n i : Nat) :
    (l.drop n).getD i 0 = l.getD (n + i) 0 := by
  by_cases hl : n + i < l.length
  · rw [List.getD_eq_getElem _ _ (by simp; omega), List.getElem_drop,
      List.getD_eq_getElem _ _ hl]
  · rw [List.getD_eq_default _ _ (by simp; omega), List.getD_eq_default _ _ (by omega)]

theorem getD_append_left (u v : List Int) (i : Nat) (h : i < u.length) :
    (u ++ v).getD i 0 = u.getD i 0 := by
  rw [List.getD_eq_getElem _ _ (by simp; omega), List.getElem_append_left h,
    List.getD_eq_getElem _ _ h]

theorem getD_append_right (u v : List Int) (i : Nat) (h : u.length ≤ i) :
    (u ++ v).getD i 0 = v.getD (i - u.length) 0 := by
  by_cases hv : i - u.length < v.length
  · rw [List.getD_eq_getElem _ _ (by simp; omega), List.getElem_append_right h,
      List.getD_eq_getElem _ _ hv]
  · rw [List.getD_eq_default _ _ (by simp; omega), List.getD_eq_default _ _ (by omega)]

theorem sum_range_add_split {β : Type} [AddCommMonoid β] (m n : Nat) (f : Nat → β) :
    ∑ i ∈ Finset.range (m + n), f i =
      (∑ i ∈ Finset.range m, f i) + ∑ i ∈ Finset.range n, f (m + i) := by
  induction n with
  | zero => simp
  | succ n ih =>
    have h : m + (n + 1) = (m + n) + 1 := by omega
    rw [h, Finset.sum_range_succ, Finset.sum_range_succ, ih]
    abel

theorem fullConv_zero_of_ge (n : Nat) (x y : Nat → Int) (idx : Nat)
    (h : 2 * n - 1 ≤ idx) (hn : 1 ≤ n) : fullConv n x y idx = 0 := by
  unfold fullConv
  refine Finset.sum_eq_zero fun i hi => Finset.sum_eq_zero fun j hj => ?_
  have hi' : i < n := Finset.mem_range.mp hi
  have hj' : j < n := Finset.mem_range.mp hj
  rw [if_neg (by omega)]

theorem fullConv_congr (n : Nat) (a a' b b' : Nat → Int)
    (ha : ∀ i, i < n → a i = a' i) (hb : ∀ j, j < n → b j = b' j) (idx : Nat) :
    fullConv n a b idx = fullConv n a' b' idx := by
  unfold fullConv
  refine Finset.sum_congr rfl fun i hi => Finset.sum_congr rfl fun j hj => ?_
  rw [ha i (Finset.mem_range.mp hi), hb j (Finset.mem_range.mp hj)]

theorem fullConv_add_left (n : Nat) (a b c : Nat → Int) (idx : Nat) :
    fullConv n (fun i => a i + b i) c idx = fullConv n a c idx + fullConv n b c idx := by
  unfold fullConv
  rw [← Finset.sum_add_distrib]
  refine Finset.sum_congr rfl fun i _ => ?_
  rw [← Finset.sum_add_distrib]
  refine Finset.sum_congr rfl fun j _ => ?_
  split_ifs
  · ring
  · ring

theorem fullConv_add_right (n : Nat) (a b c : Nat → Int) (idx : Nat) :
    fullConv n a (fun j => b j + c j) idx = fullConv n a b idx + fullConv n a c idx := by
  unfold fullConv
  rw [← Finset.sum_add_distrib]
  refine Finset.sum_congr rfl fun i _ => ?_
  rw [← Finset.sum_add_distrib]
  refine Finset.sum_congr rfl fun j _ => ?_
  split_ifs
  · ring
  · ring

theorem fullConv_split (h : Nat) (X Y : Nat → Int) (idx : Nat) :
    fullConv (2 * h) X Y idx =
      fullConv h X Y idx +
      ((if h ≤ idx then fullConv h X (fun j => Y (h + j)) (idx - h) else 0) +
       (if h ≤ idx then fullConv h (fun i => X (h + i)) Y (idx - h) else 0)) +
      (if 2 * h ≤ idx then
        fullConv h (fun i => X (h + i)) (fun j => Y (h + j)) (idx - 2 * h) else 0) := by
  unfold fullConv
  have h2 : 2 * h = h + h := by omega
  conv_lhs => rw [h2]
  rw [sum_range_add_split h h]
  rw [Finset.sum_congr rfl fun i (_ : i ∈ Finset.range h) =>
    sum_range_add_split h h (fun j => if i + j = idx then X i * Y j else 0)]
  rw [Finset.sum_congr rfl fun i (_ : i ∈ Finset.range h) =>
    sum_range_add_split h h (fun j => if h + i + j = idx then X (h + i) * Y j else 0)]
  rw [Finset.sum_add_distrib, Finset.sum_add_distrib]
  have eLR : ∑ i ∈ Finset.range h, ∑ j ∈ Finset.range h,
      (if i + (h + j) = idx then X i * Y (h + j) else 0) =
      (if h ≤ idx then
        ∑ i ∈ Finset.range h, ∑ j ∈ Finset.range h,
          (if i + j = idx - h then X i * Y (h + j) else 0) else 0) := by
    by_cases hle : h ≤ idx
    · rw [if_pos hle]
      refine Finset.sum_congr rfl fun i _ => Finset.sum_congr rfl fun j _ => ?_
      have hiff : (i + (h + j) = idx) ↔ (i + j = idx - h) := by omega
      exact if_congr hiff rfl rfl
    · rw [if_neg hle]
      refine Finset.sum_eq_zero fun i _ => Finset.sum_eq_zero fun j _ => ?_
      rw [if_neg (by omega)]
  have eRL : ∑ i ∈ Finset.range h, ∑ j ∈ Finset.range h,
      (if h + i + j = idx then X (h + i) * Y j else 0) =
      (if h ≤ idx then
        ∑ i ∈ Finset.range h, ∑ j ∈ Finset.range h,
          (if i + j = idx - h then X (h + i) * Y j else 0) else 0) := by
    by_cases hle : h ≤ idx
    · rw [if_pos hle]
      refine Finset.sum_congr rfl fun i _ => Finset.sum_congr rfl fun j _ => ?_
      have hiff : (h + i + j = idx) ↔ (i + j = idx - h) := by omega
      exact if_congr hiff rfl rfl
    · rw [if_neg hle]
      refine Finset.sum_eq_zero fun i _ => Finset.sum_eq_zero fun j _ => ?_
      rw [if_neg (by omega)]
  have eRR : ∑ i ∈ Finset.range h, ∑ j ∈ Finset.range h,
      (if h + i + (h + j) = idx then X (h + i) * Y (h + j) else 0) =
      (if 2 * h ≤ idx then
        ∑ i ∈ Finset.range h, ∑ j ∈ Finset.range h,
          (if i + j = idx - 2 * h then X (h + i) * Y (h + j) else 0) else 0) := by
    by_cases hle : 2 * h ≤ idx
    · rw [if_pos hle]
      refine Finset.sum_congr rfl fun i _ => Finset.sum_congr rfl fun j _ => ?_
      have hiff : (h + i + (h + j) = idx) ↔ (i + j = idx - 2 * h) := by omega
      exact if_congr hiff rfl rfl
    · rw [if_neg hle]
      refine Finset.sum_eq_zero fun i _ => Finset.sum_eq_zero fun j _ => ?_
      rw [if_neg (by omega)]
  rw [eLR, eRL, eRR]
  abel

theorem karatsubaRec_base (x y : List Int) (h1 : x.length = 1) :
    karatsubaRec x y = [x.getD 0 0 * y.getD 0 0] := by
  unfold karatsubaRec
  rw [if_pos h1]

theorem karatsubaRec_step (x y : List Int)
    (h1 : x.length ≠ 1) (h0 : x.length ≠ 0) :
    karatsubaRec x y =
      (if (subSlices (subSlices
            (karatsubaRec (addSlices (x.take (x.length / 2)) (x.drop (x.length / 2)))
              (addSlices (y.take (x.length / 2)) (y.drop (x.length / 2))))
            (karatsubaRec (x.drop (x.length / 2)) (y.drop (x.length / 2))))
          (karatsubaRec (x.take (x.length / 2)) (y.take (x.length / 2)))).length = 1 then
        karatsubaRec (x.take (x.length / 2)) (y.take (x.length / 2)) ++
          subSlices (subSlices
            (karatsubaRec (addSlices (x.take (x.length / 2)) (x.drop (x.length / 2)))
              (addSlices (y.take (x.length / 2)) (y.drop (x.length / 2))))
            (karatsubaRec (x.drop (x.length / 2)) (y.drop (x.length / 2))))
          (karatsubaRec (x.take (x.length / 2)) (y.take (x.length / 2))) ++
          (karatsubaRec (x.drop (x.length / 2)) (y.drop (x.length / 2)) ++ [0])
      else
        addSlices (karatsubaRec (x.take (x.length / 2)) (y.take (x.length / 2)))
          (List.replicate (x.length / 2) 0 ++
            (subSlices (subSlices
              (karatsubaRec (addSlices (x.take (x.length / 2)) (x.drop (x.length / 2)))
                (addSlices (y.take (x.length / 2)) (y.drop (x.length / 2))))
              (karatsubaRec (x.drop (x.length / 2)) (y.drop (x.length / 2))))
            (karatsubaRec (x.take (x.length / 2)) (y.take (x.length / 2)))).take
              (x.length / 2)) ++
        addSlices (karatsubaRec (x.drop (x.length / 2)) (y.drop (x.length / 2)))
          ((subSlices (subSlices
              (karatsubaRec (addSlices (x.take (x.length / 2)) (x.drop (x.length / 2)))
                (addSlices (y.take (x.length / 2)) (y.drop (x.length / 2))))
              (karatsubaRec (x.drop (x.length / 2)) (y.drop (x.length / 2))))
            (karatsubaRec (x.take (x.length / 2)) (y.take (x.length / 2)))).drop
              (x.length / 2) ++ List.replicate (x.length / 2) 0)) := by
  conv_lhs => unfold karatsubaRec
  rw [if_neg h1, if_neg h0]

theorem addSlices_length (u v : List Int) : (addSlices u v).length = min u.length v.length := by
  unfold addSlices
  rw [List.length_zipWith]

theorem subSlices_length (u v : List Int) : (subSlices u v).length = min u.length v.length := by
  unfold subSlices
  rw [List.length_zipWith]

theorem karatsubaRec_length : ∀ (m : Nat) (x y : List Int), x.length = 2 ^ m →
    y.length = 2 ^ m →
    (karatsubaRec x y).length = if m = 0 then 1 else 2 ^ (m + 1) := by
  intro m
  induction m with
  | zero =>
    intro x y hx _
    rw [karatsubaRec_base x y (by simpa using hx)]
    simp
  | succ m ih =>
    intro x y hx hy
    have hpow : (2 : Nat) ^ (m + 1) = 2 * 2 ^ m := by rw [pow_succ]; ring
    have hp1 : (1 : Nat) ≤ 2 ^ m := Nat.one_le_two_pow
    have hx1 : x.length ≠ 1 := by omega
    have hx0 : x.length ≠ 0 := by omega
    have hhalf : x.length / 2 = 2 ^ m := by omega
    rw [karatsubaRec_step x y hx1 hx0, hhalf]
    have hxL : (x.take (2 ^ m)).length = 2 ^ m := by rw [List.length_take, hx]; omega
    have hxR : (x.drop (2 ^ m)).length = 2 ^ m := by rw [List.length_drop, hx]; omega
    have hyL : (y.take (2 ^ m)).length = 2 ^ m := by rw [List.length_take, hy]; omega
    have hyR : (y.drop (2 ^ m)).length = 2 ^ m := by rw [List.length_drop, hy]; omega
    have haddx : (addSlices (x.take (2 ^ m)) (x.drop (2 ^ m))).length = 2 ^ m := by
      rw [addSlices_length, hxL, hxR, min_self]
    have haddy : (addSlices (y.take (2 ^ m)) (y.drop (2 ^ m))).length = 2 ^ m := by
      rw [addSlices_length, hyL, hyR, min_self]
    have hz0 := ih (x.take (2 ^ m)) (y.take (2 ^ m)) hxL hyL
    have hz1 := ih (addSlices (x.take (2 ^ m)) (x.drop (2 ^ m)))
      (addSlices (y.take (2 ^ m)) (y.drop (2 ^ m))) haddx haddy
    have hz2 := ih (x.drop (2 ^ m)) (y.drop (2 ^ m)) hxR hyR
    have hct : (subSlices (subSlices
        (karatsubaRec (addSlices (x.take (2 ^ m)) (x.drop (2 ^ m)))
          (addSlices (y.take (2 ^ m)) (y.drop (2 ^ m))))
        (karatsubaRec (x.drop (2 ^ m)) (y.drop (2 ^ m))))
        (karatsubaRec (x.take (2 ^ m)) (y.take (2 ^ m)))).length =
        if m = 0 then 1 else 2 ^ (m + 1) := by
      rw [subSlices_length, subSlices_length, hz0, hz1, hz2, min_self, min_self]
    by_cases hm : m = 0
    · subst hm
      rw [if_pos (by rw [hct]; decide)]
      rw [List.length_append, List.length_append, List.length_append, hz0, hz2, hct]
      decide
    · have hctL : (subSlices (subSlices
          (karatsubaRec (addSlices (x.take (2 ^ m)) (x.drop (2 ^ m)))
            (addSlices (y.take (2 ^ m)) (y.drop (2 ^ m))))
          (karatsubaRec (x.drop (2 ^ m)) (y.drop (2 ^ m))))
          (karatsubaRec (x.take (2 ^ m)) (y.take (2 ^ m)))).length = 2 ^ (m + 1) := by
        rw [hct, if_neg hm]
      have hz0L : (karatsubaRec (x.take (2 ^ m)) (y.take (2 ^ m))).length = 2 ^ (m + 1) := by
        rw [hz0, if_neg hm]
      have hz2L : (karatsubaRec (x.drop (2 ^ m)) (y.drop (2 ^ m))).length = 2 ^ (m + 1) := by
        rw [hz2, if_neg hm]
      rw [if_neg (by rw [hctL]; omega)]
      rw [if_neg (by omega : ¬ (m + 1 = 0))]
      simp only [List.length_append, addSlices_length, List.length_replicate,
        List.length_take, List.length_drop, hz0L, hz2L, hctL]
      have hpow2 : (2 : Nat) ^ (m + 1 + 1) = 2 * 2 ^ (m + 1) := by rw [pow_succ]; ring
      omega

theorem karatsuba_branchA (z0 ct z2 : List Int) (LL LR RL RR : Nat → Int)
    (h0 : z0.length = 1) (hc : ct.length = 1) (h2 : z2.length = 1)
    (hz0 : ∀ d, z0.getD d 0 = LL d) (hctv : ∀ d, ct.getD d 0 = LR d + RL d)
    (hz2 : ∀ d, z2.getD d 0 = RR d)
    (hLL0 : ∀ d, 1 ≤ d → LL d = 0) (hLR0 : ∀ d, 1 ≤ d → LR d = 0)
    (hRL0 : ∀ d, 1 ≤ d → RL d = 0) (hRR0 : ∀ d, 1 ≤ d → RR d = 0) (idx : Nat) :
    (z0 ++ ct ++ (z2 ++ [0])).getD idx 0 =
      LL idx + ((if 1 ≤ idx then LR (idx - 1) else 0) +
        (if 1 ≤ idx then RL (idx - 1) else 0)) +
      (if 2 ≤ idx then RR (idx - 2) else 0) := by
  have hlen01 : (z0 ++ ct).length = 2 := by rw [List.length_append, h0, hc]
  rcases Nat.lt_or_ge idx 4 with hc4 | hc4
  · interval_cases idx
    · rw [getD_append_left _ _ 0 (by omega), getD_append_left _ _ 0 (by omega), hz0]
      norm_num
    · rw [getD_append_left _ _ 1 (by omega), getD_append_right z0 ct 1 (by omega), h0, hctv,
        hLL0 1 (by omega)]
      norm_num
    · rw [getD_append_right _ _ 2 (by omega), hlen01, getD_append_left _ _ (2 - 2) (by omega),
        hz2, hLL0 2 (by omega), hLR0 (2 - 1) (by omega), hRL0 (2 - 1) (by omega)]
      norm_num
    · rw [getD_append_right _ _ 3 (by omega), hlen01, getD_append_right z2 _ (3 - 2) (by omega),
        h2, hLL0 3 (by omega), hLR0 (3 - 1) (by omega), hRL0 (3 - 1) (by omega),
        hRR0 (3 - 2) (by omega)]
      norm_num
  · have hlen : (z0 ++ ct ++ (z2 ++ [0])).length = 4 := by
      rw [List.length_append, List.length_append, List.length_append, h0, hc, h2]
      decide
    rw [List.getD_eq_default _ _ (by omega),
      if_pos (show 1 ≤ idx by omega), if_pos (show 1 ≤ idx by omega),
      if_pos (show 2 ≤ idx by omega), hLL0 idx (by omega),
      hLR0 (idx - 1) (by omega), hRL0 (idx - 1) (by omega), hRR0 (idx - 2) (by omega)]
    norm_num

theorem karatsuba_branchB (h : Nat) (hp : 1 ≤ h) (z0 ct z2 : List Int)
    (LL LR RL RR : Nat → Int)
    (h0 : z0.length = 2 * h) (hc : ct.length = 2 * h) (h2 : z2.length = 2 * h)
    (hz0 : ∀ d, z0.getD d 0 = LL d) (hctv : ∀ d, ct.getD d 0 = LR d + RL d)
    (hz2 : ∀ d, z2.getD d 0 = RR d)
    (hLL0 : ∀ d, 2 * h - 1 ≤ d → LL d = 0) (hLR0 : ∀ d, 2 * h - 1 ≤ d → LR d = 0)
    (hRL0 : ∀ d, 2 * h - 1 ≤ d → RL d = 0) (hRR0 : ∀ d, 2 * h - 1 ≤ d → RR d = 0)
    (idx : Nat) :
    (addSlices z0 (List.replicate h 0 ++ ct.take h) ++
      addSlices z2 (ct.drop h ++ List.replicate h 0)).getD idx 0 =
      LL idx + ((if h ≤ idx then LR (idx - h) else 0) +
        (if h ≤ idx then RL (idx - h) else 0)) +
      (if 2 * h ≤ idx then RR (idx - 2 * h) else 0) := by
  have hcL : (List.replicate h (0 : Int) ++ ct.take h).length = 2 * h := by
    rw [List.length_append, List.length_replicate, List.length_take, hc]
    omega
  have hcR : (ct.drop h ++ List.replicate h (0 : Int)).length = 2 * h := by
    rw [List.length_append, List.length_drop, List.length_replicate, hc]
    omega
  have hleft : (addSlices z0 (List.replicate h 0 ++ ct.take h)).length = 2 * h := by
    rw [addSlices_length, h0, hcL, min_self]
  have hright : (addSlices z2 (ct.drop h ++ List.replicate h 0)).length = 2 * h := by
    rw [addSlices_length, h2, hcR, min_self]
  rcases Nat.lt_or_ge idx h with c1 | c1
  · rw [getD_append_left _ _ idx (by omega),
      getD_addSlices _ _ (by rw [h0, hcL]) idx,
      getD_append_left _ _ idx (by rw [List.length_replicate]; omega),
      getD_replicate_zero, hz0, if_neg (by omega : ¬ h ≤ idx),
      if_neg (by omega : ¬ h ≤ idx), if_neg (by omega : ¬ 2 * h ≤ idx)]
    ring
  · rcases Nat.lt_or_ge idx (2 * h) with c2 | c2
    · rw [getD_append_left _ _ idx (by omega),
        getD_addSlices _ _ (by rw [h0, hcL]) idx,
        getD_append_right _ _ idx (by rw [List.length_replicate]; omega),
        List.length_replicate,
        getD_take _ _ _ (show idx - h < h by omega),
        hz0, hctv, if_pos c1, if_pos c1, if_neg (by omega : ¬ 2 * h ≤ idx)]
      ring
    · rcases Nat.lt_or_ge idx (3 * h) with c3 | c3
      · rw [getD_append_right _ _ idx (by omega), hleft,
          getD_addSlices _ _ (by rw [h2, hcR]) (idx - 2 * h),
          getD_append_left _ _ (idx - 2 * h) (by rw [List.length_drop, hc]; omega),
          getD_drop, hctv, hz2,
          if_pos c1, if_pos c1, if_pos (show 2 * h ≤ idx by omega),
          hLL0 idx (by omega),
          (show h + (idx - 2 * h) = idx - h by omega)]
        ring
      · rcases Nat.lt_or_ge idx (4 * h) with c4 | c4
        · rw [getD_append_right _ _ idx (by omega), hleft,
            getD_addSlices _ _ (by rw [h2, hcR]) (idx - 2 * h),
            getD_append_right _ _ (idx - 2 * h) (by rw [List.length_drop, hc]; omega),
            getD_replicate_zero, hz2,
            if_pos c1, if_pos c1, if_pos (show 2 * h ≤ idx by omega),
            hLL0 idx (by omega), hLR0 (idx - h) (by omega), hRL0 (idx - h) (by omega)]
          ring
        · rw [List.getD_eq_default _ _
              (by rw [List.length_append, hleft, hright]; omega),
            if_pos c1, if_pos c1, if_pos (show 2 * h ≤ idx by omega),
            hLL0 idx (by omega), hLR0 (idx - h) (by omega), hRL0 (idx - h) (by omega),
            hRR0 (idx - 2 * h) (by omega)]
          ring

theorem karatsubaRec_conv : ∀ (m : Nat) (x y : List Int), x.length = 2 ^ m →
    y.length = 2 ^ m → ∀ idx,
    (karatsubaRec x y).getD idx 0 = fullConv (2 ^ m) (toFun x) (toFun y) idx := by
  intro m
  induction m with
  | zero =>
    intro x y hx _ idx
    rw [karatsubaRec_base x y (by simpa using hx), pow_zero]
    unfold fullConv toFun
    rcases idx with _ | j
    · simp
    · simp
  | succ m ih =>
    intro x y hx hy idx
    have hpow : (2 : Nat) ^ (m + 1) = 2 * 2 ^ m := by rw [pow_succ]; ring
    have hp1 : (1 : Nat) ≤ 2 ^ m := Nat.one_le_two_pow
    have hx1 : x.length ≠ 1 := by omega
    have hx0 : x.length ≠ 0 := by omega
    have hhalf : x.length / 2 = 2 ^ m := by omega
    have hxL : (x.take (2 ^ m)).length = 2 ^ m := by rw [List.length_take, hx]; omega
    have hxR : (x.drop (2 ^ m)).length = 2 ^ m := by rw [List.length_drop, hx]; omega
    have hyL : (y.take (2 ^ m)).length = 2 ^ m := by rw [List.length_take, hy]; omega
    have hyR : (y.drop (2 ^ m)).length = 2 ^ m := by rw [List.length_drop, hy]; omega
    have haddx : (addSlices (x.take (2 ^ m)) (x.drop (2 ^ m))).length = 2 ^ m := by
      rw [addSlices_length, hxL, hxR, min_self]
    have haddy : (addSlices (y.take (2 ^ m)) (y.drop (2 ^ m))).length = 2 ^ m := by
      rw [addSlices_length, hyL, hyR, min_self]
    have hz0V : ∀ d, (karatsubaRec (x.take (2 ^ m)) (y.take (2 ^ m))).getD d 0 =
        fullConv (2 ^ m) (toFun x) (toFun y) d := by
      intro d
      rw [ih _ _ hxL hyL d]
      refine fullConv_congr _ _ _ _ _ (fun i hi => ?_) (fun j hj => ?_) d
      · unfold toFun
        exact getD_take x _ i hi
      · unfold toFun
        exact getD_take y _ j hj
    have hz2V : ∀ d, (karatsubaRec (x.drop (2 ^ m)) (y.drop (2 ^ m))).getD d 0 =
        fullConv (2 ^ m) (fun i => toFun x (2 ^ m + i)) (fun j => toFun y (2 ^ m + j)) d := by
      intro d
      rw [ih _ _ hxR hyR d]
      refine fullConv_congr _ _ _ _ _ (fun i _ => ?_) (fun j _ => ?_) d
      · unfold toFun
        exact getD_drop x _ i
      · unfold toFun
        exact getD_drop y _ j
    have hz1V : ∀ d, (karatsubaRec (addSlices (x.take (2 ^ m)) (x.drop (2 ^ m)))
        (addSlices (y.take (2 ^ m)) (y.drop (2 ^ m)))).getD d 0 =
        fullConv (2 ^ m) (toFun x) (toFun y) d +
        fullConv (2 ^ m) (toFun x) (fun j => toFun y (2 ^ m + j)) d +
        (fullConv (2 ^ m) (fun i => toFun x (2 ^ m + i)) (toFun y) d +
         fullConv (2 ^ m) (fun i => toFun x (2 ^ m + i)) (fun j => toFun y (2 ^ m + j)) d) := by
      intro d
      rw [ih _ _ haddx haddy d]
      have hcongr : fullConv (2 ^ m) (toFun (addSlices (x.take (2 ^ m)) (x.drop (2 ^ m))))
          (toFun (addSlices (y.take (2 ^ m)) (y.drop (2 ^ m)))) d =
          fullConv (2 ^ m) (fun i => toFun x i + toFun x (2 ^ m + i))
            (fun j => toFun y j + toFun y (2 ^ m + j)) d := by
        refine fullConv_congr _ _ _ _ _ (fun i hi => ?_) (fun j hj => ?_) d
        · unfold toFun
          rw [getD_addSlices _ _ (hxL.trans hxR.symm) i, getD_take x _ i hi, getD_drop x _ i]
        · unfold toFun
          rw [getD_addSlices _ _ (hyL.trans hyR.symm) j, getD_take y _ j hj, getD_drop y _ j]
      rw [hcongr,
        fullConv_add_left (2 ^ m) (toFun x) (fun i => toFun x (2 ^ m + i))
          (fun j => toFun y j + toFun y (2 ^ m + j)) d,
        fullConv_add_right (2 ^ m) (toFun x) (toFun y) (fun j => toFun y (2 ^ m + j)) d,
        fullConv_add_right (2 ^ m) (fun i => toFun x (2 ^ m + i)) (toFun y)
          (fun j => toFun y (2 ^ m + j)) d]
    have hzlen0 : (karatsubaRec (x.take (2 ^ m)) (y.take (2 ^ m))).length =
        if m = 0 then 1 else 2 ^ (m + 1) := karatsubaRec_length m _ _ hxL hyL
    have hzlen1 : (karatsubaRec (addSlices (x.take (2 ^ m)) (x.drop (2 ^ m)))
        (addSlices (y.take (2 ^ m)) (y.drop (2 ^ m)))).length =
        if m = 0 then 1 else 2 ^ (m + 1) := karatsubaRec_length m _ _ haddx haddy
    have hzlen2 : (karatsubaRec (x.drop (2 ^ m)) (y.drop (2 ^ m))).length =
        if m = 0 then 1 else 2 ^ (m + 1) := karatsubaRec_length m _ _ hxR hyR
    have hctlen : (subSlices (subSlices
        (karatsubaRec (addSlices (x.take (2 ^ m)) (x.drop (2 ^ m)))
          (addSlices (y.take (2 ^ m)) (y.drop (2 ^ m))))
        (karatsubaRec (x.drop (2 ^ m)) (y.drop (2 ^ m))))
        (karatsubaRec (x.take (2 ^ m)) (y.take (2 ^ m)))).length =
        if m = 0 then 1 else 2 ^ (m + 1) := by
      rw [subSlices_length, subSlices_length, hzlen0, hzlen1, hzlen2, min_self, min_self]
    have hcrossV : ∀ d, (subSlices (subSlices
        (karatsubaRec (addSlices (x.take (2 ^ m)) (x.drop (2 ^ m)))
          (addSlices (y.take (2 ^ m)) (y.drop (2 ^ m))))
        (karatsubaRec (x.drop (2 ^ m)) (y.drop (2 ^ m))))
        (karatsubaRec (x.take (2 ^ m)) (y.take (2 ^ m)))).getD d 0 =
        fullConv (2 ^ m) (toFun x) (fun j => toFun y (2 ^ m + j)) d +
        fullConv (2 ^ m) (fun i => toFun x (2 ^ m + i)) (toFun y) d := by
      intro d
      rw [getD_subSlices _ _ (by rw [subSlices_length, hzlen1, hzlen2, min_self, hzlen0]) d,
        getD_subSlices _ _ (hzlen1.trans hzlen2.symm) d, hz1V, hz2V, hz0V]
      ring
    rw [karatsubaRec_step x y hx1 hx0, hhalf, hpow,
      fullConv_split (2 ^ m) (toFun x) (toFun y) idx]
    by_cases hbr : (subSlices (subSlices
        (karatsubaRec (addSlices (x.take (2 ^ m)) (x.drop (2 ^ m)))
          (addSlices (y.take (2 ^ m)) (y.drop (2 ^ m))))
        (karatsubaRec (x.drop (2 ^ m)) (y.drop (2 ^ m))))
        (karatsubaRec (x.take (2 ^ m)) (y.take (2 ^ m)))).length = 1
    · rw [if_pos hbr]
      have hm0 : m = 0 := by
        by_contra hm0
        rw [hctlen, if_neg hm0] at hbr
        omega
      have h0len : (karatsubaRec (x.take (2 ^ m)) (y.take (2 ^ m))).length = 1 := by
        rw [hzlen0, if_pos hm0]
      have h2len : (karatsubaRec (x.drop (2 ^ m)) (y.drop (2 ^ m))).length = 1 := by
        rw [hzlen2, if_pos hm0]
      subst hm0
      simp only [pow_zero, mul_one] at hz0V hz2V hcrossV h0len h2len hbr ⊢
      exact karatsuba_branchA _ _ _
        (fun d => fullConv 1 (toFun x) (toFun y) d)
        (fun d => fullConv 1 (toFun x) (fun j => toFun y (1 + j)) d)
        (fun d => fullConv 1 (fun i => toFun x (1 + i)) (toFun y) d)
        (fun d => fullConv 1 (fun i => toFun x (1 + i)) (fun j => toFun y (1 + j)) d)
        h0len hbr h2len hz0V hcrossV hz2V
        (fun d hd => fullConv_zero_of_ge 1 _ _ d (by omega) (by omega))
        (fun d hd => fullConv_zero_of_ge 1 _ _ d (by omega) (by omega))
        (fun d hd => fullConv_zero_of_ge 1 _ _ d (by omega) (by omega))
        (fun d hd => fullConv_zero_of_ge 1 _ _ d (by omega) (by omega)) idx
    · rw [if_neg hbr]
      have hm0 : m ≠ 0 := by
        intro hm0
        apply hbr
        rw [hctlen, if_pos hm0]
      have h0len : (karatsubaRec (x.take (2 ^ m)) (y.take (2 ^ m))).length = 2 * 2 ^ m := by
        rw [hzlen0, if_neg hm0]
        exact hpow
      have h2len : (karatsubaRec (x.drop (2 ^ m)) (y.drop (2 ^ m))).length = 2 * 2 ^ m := by
        rw [hzlen2, if_neg hm0]
        exact hpow
      have hctlen2 : (subSlices (subSlices
          (karatsubaRec (addSlices (x.take (2 ^ m)) (x.drop (2 ^ m)))
            (addSlices (y.take (2 ^ m)) (y.drop (2 ^ m))))
          (karatsubaRec (x.drop (2 ^ m)) (y.drop (2 ^ m))))
          (karatsubaRec (x.take (2 ^ m)) (y.take (2 ^ m)))).length = 2 * 2 ^ m := by
        rw [hctlen, if_neg hm0]
        exact hpow
      exact karatsuba_branchB (2 ^ m) hp1 _ _ _
        (fun d => fullConv (2 ^ m) (toFun x) (toFun y) d)
        (fun d => fullConv (2 ^ m) (toFun x) (fun j => toFun y (2 ^ m + j)) d)
        (fun d => fullConv (2 ^ m) (fun i => toFun x (2 ^ m + i)) (toFun y) d)
        (fun d => fullConv (2 ^ m) (fun i => toFun x (2 ^ m + i))
          (fun j => toFun y (2 ^ m + j)) d)
        h0len hctlen2 h2len hz0V hcrossV hz2V
        (fun d hd => fullConv_zero_of_ge (2 ^ m) _ _ d (by omega) hp1)
        (fun d hd => fullConv_zero_of_ge (2 ^ m) _ _ d (by omega) hp1)
        (fun d hd => fullConv_zero_of_ge (2 ^ m) _ _ d (by omega) hp1)
        (fun d hd => fullConv_zero_of_ge (2 ^ m) _ _ d (by omega) hp1) idx

theorem symmetricModulusCoeff_congr {q a b : Int} (hq : 0 < q) (h : a ≡ b [ZMOD q]) :
    symmetricModulusCoeff q a = symmetricModulusCoeff q b :=
  symRange_unique hq
    (((symmetricModulusCoeff_modEq q a).trans h).trans (symmetricModulusCoeff_modEq q b).symm)
    (symmetricModulusCoeff_range q a hq).1 (symmetricModulusCoeff_range q a hq).2
    (symmetricModulusCoeff_range q b hq).1 (symmetricModulusCoeff_range q b hq).2

theorem negacyclicRef_eq_fullConv (n : Nat) (hn : 1 ≤ n) (x y : Nat → Int) (idx : Nat) :
    negacyclicRef n x y idx = fullConv n x y idx - fullConv n x y (idx + n) := by
  unfold negacyclicRef fullConv
  rw [← Finset.sum_sub_distrib]
  refine Finset.sum_congr rfl fun i _ => ?_
  rw [← Finset.sum_sub_distrib]
  refine Finset.sum_congr rfl fun j _ => ?_
  by_cases h1 : i + j = idx
  · simp only [if_pos h1]
    rw [if_neg (show ¬ i + j = idx + n by omega)]
    ring
  · simp only [if_neg h1]
    by_cases h2 : i + j = idx + n
    · simp only [if_pos h2]
      ring
    · simp only [if_neg h2]
      ring

theorem karatsubaFold_getD (p q : List Int) (i : Nat) (h : i < p.length) :
    (karatsubaFold p q).getD i 0 =
      (karatsubaRec p q).getD i 0 - (karatsubaRec p q).getD (i + p.length) 0 := by
  unfold karatsubaFold
  exact getD_map_range _ _ i h

theorem polyMod_length (q : Int) (l : List Int) : (polyMod q l).length = l.length :=
  List.length_map _ _

theorem list_eq_of_getD {L1 L2 : List Int} (hlen : L1.length = L2.length)
    (h : ∀ i, i < L1.length → L1.getD i 0 = L2.getD i 0) : L1 = L2 := by
  refine List.ext_getElem hlen fun i h1 h2 => ?_
  have hh := h i h1
  rwa [List.getD_eq_getElem _ _ h1, List.getD_eq_getElem _ _ h2] at hh

/-- Counterexample to claim C7: the claim covers every power-of-two length,
but at length N = 1 the Go Karatsuba panics: karatsubaRec([7], [5]) returns
the length-1 slice [35], and the fold loop then reads karat[1] out of range.
The embedding returns none for this run, while the claimed negacyclic fold
value of the convolution would be 35. -/
theorem C7_counterexample :
    Karatsuba [7] [5] = none ∧ negacyclicRef (2 ^ 0) (toFun [7]) (toFun [5]) 0 = 35 := by
  constructor
  · unfold Karatsuba
    rw [karatsubaRec_base [7] [5] rfl]
    rfl
  · decide

/-- Claim C7 (amended): for equal power-of-two length inputs of length at
least 2, Karatsuba completes (no panic) and returns exactly the negacyclic
fold out[i] = conv[i] - conv[i + N] of the full length-2N integer
convolution; consequently, for a prime q = 1 mod 2N above the coefficient
bound of the product (with a valid sampled primitive root g), reducing
Karatsuba(x, y) and Multiplier.Mul(x, y) modulo q gives the same polynomial.
At length 1 the source panics on an out-of-range index instead (see the
counterexample). -/
theorem C7_karatsuba_fold_mod_agreement (k q : Nat) (g : Int) (x y : List Int)
    (hk : 1 ≤ k)
    (hq : q.Prime) (hqmod : q % (2 * 2 ^ k) = 1)
    (hg1 : g ^ (2 * 2 ^ k) ≡ 1 [ZMOD (q : Int)]) (hg2 : ¬ g ^ 2 ^ k ≡ 1 [ZMOD (q : Int)])
    (hx : x.length = 2 ^ k) (hy : y.length = 2 ^ k)
    (hbound : 2 * ((2 ^ k : Nat) : Int) * normInfinite x * normInfinite y < (q : Int)) :
    Karatsuba x y = some (karatsubaFold x y) ∧
    (∀ i, i < 2 ^ k →
      (karatsubaFold x y).getD i 0 =
        fullConv (2 ^ k) (toFun x) (toFun y) i -
        fullConv (2 ^ k) (toFun x) (toFun y) (i + 2 ^ k)) ∧
    polyMod (q : Int) (karatsubaFold x y) =
      polyMod (q : Int) ((NewMultiplier (2 ^ k) (q : Int) g).Mul x y) := by
  have hkr : (karatsubaRec x y).length = 2 ^ (k + 1) := by
    rw [karatsubaRec_length k x y hx hy, if_neg (by omega)]
  have hsome : Karatsuba x y = some (karatsubaFold x y) := by
    unfold Karatsuba
    rw [if_pos (by rw [hkr, hx, pow_succ]; omega)]
  have hfold : ∀ i, i < 2 ^ k →
      (karatsubaFold x y).getD i 0 =
        fullConv (2 ^ k) (toFun x) (toFun y) i -
        fullConv (2 ^ k) (toFun x) (toFun y) (i + 2 ^ k) := by
    intro i hi
    rw [karatsubaFold_getD x y i (by omega), hx, karatsubaRec_conv k x y hx hy i,
      karatsubaRec_conv k x y hx hy (i + 2 ^ k)]
  refine ⟨hsome, hfold, ?_⟩
  have hq0 : (0 : Int) < (q : Int) := by
    have := hq.two_le
    exact_mod_cast by omega
  have hk1 : (1 : Nat) ≤ 2 ^ k := Nat.one_le_two_pow
  have hlenK : (karatsubaFold x y).length = 2 ^ k := by
    unfold karatsubaFold
    rw [List.length_map, List.length_range, hx]
  have hlenM : ((NewMultiplier (2 ^ k) (q : Int) g).Mul x y).length = 2 ^ k :=
    Mul_length _ x y
  refine list_eq_of_getD (by rw [polyMod_length, polyMod_length, hlenK, hlenM]) ?_
  intro i hleni
  rw [polyMod_length, hlenK] at hleni
  rw [polyMod_getD _ _ i (by omega), polyMod_getD _ _ i (by omega)]
  refine symmetricModulusCoeff_congr hq0 ?_
  have hKar : (karatsubaFold x y).getD i 0 = negacyclicRef (2 ^ k) (toFun x) (toFun y) i := by
    rw [hfold i hleni, ← negacyclicRef_eq_fullConv (2 ^ k) hk1 (toFun x) (toFun y) i]
  rw [hKar]
  exact (mul_conv_modEq k q g x y hq hqmod hg1 hg2 hx hy i hleni).symm

theorem C7_karatsuba_fold_mod_agreement_witness :
    Nat.Prime 5 ∧
      (Karatsuba [1, 0] [1, 0] = some (karatsubaFold [1, 0] [1, 0]) ∧
      (∀ i, i < 2 ^ 1 →
        (karatsubaFold [1, 0] [1, 0]).getD i 0 =
          fullConv (2 ^ 1) (toFun [1, 0]) (toFun [1, 0]) i -
          fullConv (2 ^ 1) (toFun [1, 0]) (toFun [1, 0]) (i + 2 ^ 1)) ∧
      polyMod ((5 : Nat) : Int) (karatsubaFold [1, 0] [1, 0]) =
        polyMod ((5 : Nat) : Int)
          ((NewMultiplier (2 ^ 1) ((5 : Nat) : Int) 2).Mul [1, 0] [1, 0])) :=
  ⟨by norm_num,
   C7_karatsuba_fold_mod_agreement 1 5 2 [1, 0] [1, 0] (by decide) (by norm_num) (by decide)
     (by decide) (by decide) (by decide) (by decide) (by decide)⟩

/-- Truncation toward zero of a rational value, the rounding big.Float.Int
performs when converting a float to an integer. -/
def bigFloatTrunc (q : Rat) : Int := if 0 ≤ q then ⌊q⌋ else ⌈q⌉

/-- Embedding of the per-coefficient computation of ScaleNearest from
polynomial.go: take |c|, divide by scale as a float, add 0.5, truncate to an
integer, and negate when the original coefficient was negative.  The
big.Float arithmetic is modelled exactly over the rationals; on the inputs
analysed below every intermediate float value is exactly representable at
the precision Go uses, so the model coincides with the code there. -/
def ScaleNearestCoeff (scale c : Int) : Int :=
  let quo : Rat := (c.natAbs : Rat) / (scale : Rat)
  let aux : Rat := quo + 1 / 2
  let t := bigFloatTrunc aux
  if c < 0 then -t else t

/-- Embedding of ScaleNearest from polynomial.go: the coefficient map above,
with the division-by-zero panic modelled as none. -/
def ScaleNearest (scale : Int) (p : List Int) : Option (List Int) :=
  if scale = 0 then none else some (p.map (ScaleNearestCoeff scale))

/-- Modelled from the spec: rounding a quotient to the nearest integer with
halves away from zero. -/
def roundHalfAwayFromZero (num den : Int) : Int :=
  let x : Rat := (num : Rat) / (den : Rat)
  if 0 ≤ x then ⌊x + 1 / 2⌋ else ⌈x - 1 / 2⌉

/-- Claim C8: divergence between ScaleNearest and the rounding the spec (and
the function's own comment) promises.  For the polynomial [3] and scale -1,
the code computes trunc(|3| / (-1) + 0.5) = trunc(-2.5) = -2, while
round(3 / -1) = -3 under half-away-from-zero rounding; every intermediate
float in this run is exact, so the divergence is not a precision artefact. -/
theorem C8_scale_nearest_negative_scale_bug :
    ScaleNearest (-1) [3] = some [-2] ∧ roundHalfAwayFromZero 3 (-1) = -3 := by
  constructor
  · unfold ScaleNearest ScaleNearestCoeff bigFloatTrunc
    rw [if_neg (by norm_num)]
    simp only [List.map_cons, List.map_nil]
    norm_num
    rw [Int.ceil_eq_iff]
    norm_num
  · unfold roundHalfAwayFromZero
    rw [if_neg (by norm_num)]
    rw [Int.ceil_eq_iff]
    norm_num

/-- Counterexample to claim C9: called with dim = 1 and hamming = 2, HWT
returns the recoverable typed error value (nil vector and a Go error built
by errors.New), not an abort: the caller receives it and may ignore it. -/
theorem C9_counterexample :
    HWT 1 2 (fun _ => 0) 0 = some (Except.error "impossible hamming weight") := rfl

/-- Claim C9 (amended): an impossible Hamming weight (hamming > dim) makes
HWT return the typed error value errors.New("impossible hamming weight")
together with a nil vector; the contract violation is reported as an
ordinary recoverable error, not as a panic. -/
theorem C9_hwt_error_value (dim hamming : Nat) (stream : Nat → Nat) (fuel : Nat)
    (h : dim < hamming) :
    HWT dim hamming stream fuel = some (Except.error "impossible hamming weight") := by
  unfold HWT
  rw [if_pos h]

theorem C9_hwt_error_value_witness :
    1 < 2 ∧ HWT 1 2 (fun _ => 0) 5 = some (Except.error "impossible hamming weight") :=
  ⟨by decide, C9_hwt_error_value 1 2 (fun _ => 0) 5 (by decide)⟩

theorem hwtGo_zero (dim : Nat) (stream : Nat → Nat) (fuel : Nat) (vec : List Int)
    (pos : Nat) : hwtGo dim stream fuel vec 0 pos = some vec := by
  cases fuel <;> rfl

theorem hammingWeight_cons (a : Int) (l : List Int) :
    HammingWeight (a :: l) = (if a = 0 then 0 else 1) + HammingWeight l := by
  unfold HammingWeight
  rw [List.filter_cons]
  by_cases h : a = 0
  · simp [h]
  · simp [h]
    omega

theorem hammingWeight_replicate_zero (n : Nat) :
    HammingWeight (List.replicate n (0 : Int)) = 0 := by
  induction n with
  | zero => rfl
  | succ n ih =>
    rw [List.replicate_succ, hammingWeight_cons, ih]
    norm_num

theorem hammingWeight_set_neg_one : ∀ (vec : List Int) (i : Nat),
    i < vec.length → vec.getD i 0 = 0 →
    HammingWeight (vec.set i (-1)) = HammingWeight vec + 1 := by
  intro vec
  induction vec with
  | nil =>
    intro i hi _
    simp at hi
  | cons a t ih =>
    intro i hi h0
    cases i with
    | zero =>
      have ha : a = 0 := by simpa using h0
      rw [List.set_cons_zero, hammingWeight_cons, hammingWeight_cons, ha]
      norm_num
      omega
    | succ j =>
      have hj : j < t.length := by simpa using hi
      have h0t : t.getD j 0 = 0 := by simpa using h0
      rw [List.set_cons_succ, hammingWeight_cons, hammingWeight_cons, ih j hj h0t]
      omega

theorem hwtGo_spec (dim : Nat) (hdim : 0 < dim) (stream : Nat → Nat) :
    ∀ (fuel : Nat) (vec : List Int) (remaining pos : Nat) (out : List Int),
      vec.length = dim →
      (∀ e ∈ vec, e = 0 ∨ e = -1) →
      hwtGo dim stream fuel vec remaining pos = some out →
      out.length = dim ∧ (∀ e ∈ out, e = 0 ∨ e = -1) ∧
        HammingWeight out = HammingWeight vec + remaining := by
  intro fuel
  induction fuel with
  | zero =>
    intro vec remaining pos out hlen hent heq
    cases remaining with
    | zero =>
      rw [hwtGo_zero] at heq
      obtain rfl := Option.some.inj heq
      exact ⟨hlen, hent, by omega⟩
    | succ r => simp [hwtGo] at heq
  | succ fuel ih =>
    intro vec remaining pos out hlen hent heq
    cases remaining with
    | zero =>
      rw [hwtGo_zero] at heq
      obtain rfl := Option.some.inj heq
      exact ⟨hlen, hent, by omega⟩
    | succ r =>
      simp only [hwtGo] at heq
      by_cases hcol : vec.getD (stream pos % dim) 0 ≠ 0
      · rw [if_pos hcol] at heq
        exact ih vec (r + 1) (pos + 1) out hlen hent heq
      · rw [if_neg hcol] at heq
        push_neg at hcol
        have hindex : stream pos % dim < dim := Nat.mod_lt _ hdim
        have hv2 : ((if stream (pos + 1) % 2 = 0 then
            vec.set (stream pos % dim) 1 else vec).set (stream pos % dim) (-1)) =
            vec.set (stream pos % dim) (-1) := by
          by_cases hcoin : stream (pos + 1) % 2 = 0
          · rw [if_pos hcoin, List.set_set]
          · rw [if_neg hcoin]
        rw [hv2] at heq
        have hlen2 : (vec.set (stream pos % dim) (-1)).length = dim := by
          rw [List.length_set]
          exact hlen
        have hent2 : ∀ e ∈ vec.set (stream pos % dim) (-1), e = 0 ∨ e = -1 := by
          intro e he
          rcases List.mem_or_eq_of_mem_set he with h | h
          · exact hent e h
          · right
            exact h
        obtain ⟨h1, h2, h3⟩ := ih (vec.set (stream pos % dim) (-1)) r (pos + 2) out
          hlen2 hent2 heq
        refine ⟨h1, h2, ?_⟩
        rw [h3, hammingWeight_set_neg_one vec _ (by omega) hcol]
        omega

/-- Claim C10: for every 0 <= hamming <= dim and every outcome of the random
draws, a vector returned by HWT has exactly hamming nonzero entries, every
nonzero entry is -1, and +1 never appears: the +1 written on a zero coin is
always overwritten by the unconditional -1 store. -/
theorem C10_hwt_only_neg_ones (dim hamming : Nat) (stream : Nat → Nat) (fuel : Nat)
    (v : List Int) (hle : hamming ≤ dim)
    (hout : HWT dim hamming stream fuel = some (Except.ok v)) :
    v.length = dim ∧ (∀ e ∈ v, e = 0 ∨ e = -1) ∧ HammingWeight v = hamming := by
  unfold HWT at hout
  rw [if_neg (by omega)] at hout
  obtain ⟨w, hw, hwv⟩ := Option.map_eq_some'.mp hout
  injection hwv with hwv
  subst hwv
  rcases Nat.eq_zero_or_pos dim with hdim0 | hdim
  · subst hdim0
    have hh : hamming = 0 := by omega
    subst hh
    rw [hwtGo_zero] at hw
    obtain rfl := Option.some.inj hw
    refine ⟨rfl, ?_, rfl⟩
    intro e he
    simp at he
  · have hbase2 : ∀ e ∈ List.replicate dim (0 : Int), e = 0 ∨ e = -1 := by
      intro e he
      left
      exact List.eq_of_mem_replicate he
    obtain ⟨h1, h2, h3⟩ := hwtGo_spec dim hdim stream fuel _ hamming 0 w
      (List.length_replicate dim 0) hbase2 hw
    rw [hammingWeight_replicate_zero] at h3
    exact ⟨h1, h2, by omega⟩

theorem C10_hwt_only_neg_ones_witness :
    1 ≤ 2 ∧ (([-1, 0] : List Int).length = 2 ∧
      (∀ e ∈ ([-1, 0] : List Int), e = 0 ∨ e = -1) ∧ HammingWeight [-1, 0] = 1) :=
  ⟨by decide, C10_hwt_only_neg_ones 2 1 (fun _ => 0) 5 [-1, 0] (by decide) rfl⟩
